import Mathlib

/-!
# Interpolation calculator (kxrxh/CM-Lab5): shallow embedding and contract theorems

The embedded code is `src/include/interpolation_calc.hpp`, class
`IntepolationCalculator`, and the function `parse_file` of `src/include/file_parser.hpp`.

Modelling conventions

* `double` is modelled by an arbitrary field `K` ("exact arithmetic"); every
  definition is computable and can be run at `K := ℚ`.
* `std::vector<double>` is `List K`; `v[i]` is `v.getD i 0`, `v[i] = e` is `v.set i e`.
  An out-of-range access is undefined behaviour in the source; the model reads `0`
  and ignores the write.  The theorems about values are stated on inputs for which all
  accesses are in range; the lists `newton_finite_reads`, `stirling_reads`, `bessel_reads`
  give the cells `defy[i][k]` an evaluator reads, with the signed row index of the source.
* `for` loops are left folds over the list of values taken by the loop counter.
* Division is the field division (`a / 0 = 0`); theorems that depend on a divisor
  carry the hypothesis that makes it non-zero.  The definitions whose name ends in `E`
  are the same methods with every division checked: they return `none` at the first zero
  divisor.
* Rounded arithmetic: the definitions whose name ends in `R` are the checked Stirling and
  Bessel closures with a rounding `rnd` applied to the result of every operation;
  `rnd := id` gives back the `E` definitions, `rnd := roundDouble` over `ℚ` is IEEE 754
  binary64 arithmetic (round to nearest, ties to even, subnormal numbers) on finite values.
* `std::to_string` is a parameter `to_string : K → String` of the renderers; `to_string6`
  is the format `"%f"` that `std::to_string(double)` uses (six decimals), `readDecimal`
  reads such a literal, and `readExpression` reads a rendered string as a sum of products.
-/

namespace IntepolationCalculator

/-- The five interpolation methods of `enum InterpolationMethod`. -/
inductive InterpolationMethod where
  | Lagrange
  | NewtonSeparated
  | NewtonFinite
  | Stirling
  | Bessel
  deriving DecidableEq

/-- Read `defy[i][j]` from a vector of vectors, with a signed row index as computed by
the source's `int` arithmetic.  Out-of-range reads (undefined in the source) give `0`. -/
def entry {K : Type} [Field K] (defy : List (List K)) (i : Int) (j : Nat) : K :=
  if i < 0 then 0 else (defy.getD i.toNat []).getD j 0

/-- Write `defy[i][j] = e` into a vector of vectors. -/
def setEntry {K : Type} [Field K] (defy : List (List K)) (i j : Nat) (e : K) : List (List K) :=
  defy.set i ((defy.getD i []).set j e)

/-- Method `differences()` (lines 54-62): `diff = y`, then for `i = 1 .. size-1` and for
`j = size-1` down to `i`, `diff[j] = (diff[j] - diff[j-1]) / (x[j] - x[j-i])`. -/
def differences {K : Type} [Field K] (x y : List K) : List K :=
  (List.range' 1 (y.length - 1)).foldl
    (fun diff i =>
      ((List.range' i (y.length - i)).reverse).foldl
        (fun diff j =>
          diff.set j ((diff.getD j 0 - diff.getD (j - 1) 0) / (x.getD j 0 - x.getD (j - i) 0)))
        diff)
    y

/-- The closure returned by `lagrange()` (lines 68-82). -/
def lagrange {K : Type} [Field K] (x y : List K) (v : K) : K :=
  (List.range y.length).foldl
    (fun sum i =>
      sum + y.getD i 0 *
        (List.range y.length).foldl
          (fun prod j =>
            if i ≠ j then prod * ((v - x.getD j 0) / (x.getD i 0 - x.getD j 0)) else prod)
          1)
    0

/-- The closure returned by `newton_separated()` (lines 88-103); `diff.front()` is
`diff[0]`. -/
def newton_separated {K : Type} [Field K] (x y : List K) (v : K) : K :=
  let diff := differences x y
  (List.range' 1 (x.length - 1)).foldl
    (fun sum i =>
      sum + diff.getD i 0 * (List.range i).foldl (fun prod j => prod * (v - x.getD j 0)) 1)
    (diff.getD 0 0)

/-- Method `factorial(x)` (lines 373-379): the product `1 * 1 * 2 * ... * x` as a `double`. -/
def factorial {K : Type} [Field K] (n : Nat) : K :=
  (List.range' 1 n).foldl (fun f i => f * (i : K)) 1

/-- Method `difference_table()` (lines 295-310): an all-zero `size × size` grid, column 0 set to
`y`, then for `i = 1 .. size-1` and `j = 0 .. size-2` the assignment
`defy[i][j] = defy[j+1][i-1] - defy[j][i-1]`. -/
def difference_table {K : Type} [Field K] (y : List K) : List (List K) :=
  let defy0 : List (List K) := List.replicate y.length (List.replicate y.length 0)
  let defy1 := (List.range y.length).foldl (fun defy i => setEntry defy i 0 (y.getD i 0)) defy0
  (List.range' 1 (y.length - 1)).foldl
    (fun defy i =>
      (List.range (y.length - 1)).foldl
        (fun defy j =>
          setEntry defy i j (entry defy ((j : Int) + 1) (i - 1) - entry defy (j : Int) (i - 1)))
        defy)
    defy1

/-- The closure returned by `newton_finite()` (lines 109-124); the loop state is the pair
`(result, term)`. -/
def newton_finite {K : Type} [Field K] (x y : List K) (v : K) : K :=
  let n := x.length - 1
  let defy := difference_table y
  ((List.range' 1 n).foldl
    (fun (st : K × K) (i : Nat) =>
      let term := st.2 * (v - x.getD (i - 1) 0)
      (st.1 + term * entry defy 0 i / factorial i, term))
    (entry defy 0 0, 1)).1

/-- The closure returned by `stirling()` (lines 130-158).  `n = size - 1`,
`center = n / 2`; the loop runs over `k = 3 .. n-1`. -/
def stirling {K : Type} [Field K] (x y : List K) (v : K) : K :=
  let n := x.length - 1
  let center : Nat := n / 2
  let c : Int := center
  let a := x.getD center 0
  let defy := difference_table y
  let h := x.getD (center + 1) 0 - x.getD center 0
  let t := (v - a) / h
  let result0 := entry defy c 0 + t * (entry defy (c - 1) 1 + entry defy c 1) / 2
    + t ^ 2 / 2 * entry defy (c - 1) 2
  ((List.range' 3 (n - 3)).foldl
    (fun (st : K × K) (k : Nat) =>
      if k % 2 = 0 then
        let term := st.2 * (t / (k : K))
        (st.1 + term * entry defy (c - ((k / 2 : Nat) : Int)) k, term)
      else
        let term := st.2 * ((t ^ 2 - ((k / 2 : Nat) : K) ^ 2) / ((k : K) * t))
        (st.1 + term * (entry defy (c - ((k / 2 : Nat) : Int) - 1) k
                        + entry defy (c - ((k / 2 : Nat) : Int)) k) / 2, term))
    (result0, t ^ 2 / 2)).1

/-- The closure returned by `bessel()` (lines 164-196).  `n = size - 1`,
`center = n / 2`; the loop runs over `k = 3 .. n`; `k / 2.0` is a real division,
`k / 2` an integer one. -/
def bessel {K : Type} [Field K] (x y : List K) (v : K) : K :=
  let n := x.length - 1
  let center : Nat := n / 2
  let c : Int := center
  let a := x.getD center 0
  let defy := difference_table y
  let h := x.getD (center + 1) 0 - x.getD center 0
  let t := (v - a) / h
  let result0 := (entry defy c 0 + entry defy (c + 1) 0) / 2
    + (t - 1 / 2) * entry defy c 1
    + t * (t - 1) / 2 * (entry defy (c - 1) 2 + entry defy c 2) / 2
  ((List.range' 3 (n - 2)).foldl
    (fun (st : K × K) (k : Nat) =>
      if k % 2 = 0 then
        let term := st.2 / (t - 1 / 2)
        let term := term * ((t + ((k : K) / 2 - 1)) * (t - (k : K) / 2) / (k : K))
        (st.1 + term * (entry defy (c - 1 - (((k / 2 : Nat) : Int) - 1)) k
                        + entry defy (c - (((k / 2 : Nat) : Int) - 1)) k) / 2, term)
      else
        let term := st.2 * ((t - 1 / 2) / (k : K))
        (st.1 + term * entry defy (c - ((k / 2 : Nat) : Int)) k, term))
    (result0, t * (t - 1) / 2)).1

/-- Method `interpolate()` (lines 338-353): dispatch on the method tag. -/
def interpolate {K : Type} [Field K] (method : InterpolationMethod) (x y : List K) : K → K :=
  match method with
  | .Lagrange => lagrange x y
  | .NewtonFinite => newton_finite x y
  | .NewtonSeparated => newton_separated x y
  | .Stirling => stirling x y
  | .Bessel => bessel x y


/-- Reference divided difference `f[x_a, ..., x_(a+m)]`, written after the specification:
`f[x_a] = y[a]` and
`f[x_a, ..., x_b] = (f[x_(a+1), ..., x_b] - f[x_a, ..., x_(b-1)]) / (x[b] - x[a])`,
with `b = a + m`. -/
def dividedDifference {K : Type} [Field K] (x y : List K) : Nat → Nat → K
  | a, 0 => y.getD a 0
  | a, m + 1 =>
    (dividedDifference x y (a + 1) m - dividedDifference x y a m)
      / (x.getD (a + m + 1) 0 - x.getD a 0)

/-- Loop invariant of `differences` once the sweeps of orders `1 .. i` are done: cell `j`
holds the divided difference of order `i` ending at node `j` when `i ≤ j`, and the
finished coefficient `f[x_0, ..., x_j]` when `j < i`. -/
def DiffInv {K : Type} [Field K] (x y : List K) (i : Nat) (D : List K) : Prop :=
  D.length = y.length ∧
    ∀ j, j < y.length →
      D.getD j 0 =
        if i ≤ j then dividedDifference x y (j - i) i else dividedDifference x y 0 j

/-- The node abscissae as a function of the index. -/
def nodeX {K : Type} [Field K] (x : List K) (j : Nat) : K := x.getD j 0


/-! ## Sampling utility -/

/-- Method `generate_func_values(func, start, end, nodes)` (lines 390-402): the step is
`(end - start) / (nodes - 1)`, both vectors are created with `nodes` zero cells, and cell `i`
receives `start + step * i` and the value of `func` there.  The node count is a `Nat`
(a negative `int` cannot size a vector); `nodes - 1` is the `int` subtraction. -/
def generate_func_values {K : Type} [Field K] (func : K → K) (start stop : K) (nodes : Nat) :
    List K × List K :=
  let step := (stop - start) / ((((nodes : Int) - 1 : Int)) : K)
  (List.range nodes).foldl
    (fun (st : List K × List K) (i : Nat) =>
      let x_values := start + step * (i : K)
      (st.1.set i x_values, st.2.set i (func x_values)))
    (List.replicate nodes 0, List.replicate nodes 0)

/-! ## Table cells read by the finite-difference evaluators -/

/-- Cells `defy[i][k]` read by the closure of `newton_finite()` on `size` nodes, in program
order: `defy.front().front()`, then `defy.front()[i]` for `i = 1 .. size-1`. -/
def newton_finite_reads (size : Nat) : List (Int × Nat) :=
  ((0 : Int), 0) :: (List.range' 1 (size - 1)).map (fun i => ((0 : Int), i))

/-- Cells `defy[i][k]` read by the closure of `stirling()` on `size` nodes, in program order
(lines 140-152). -/
def stirling_reads (size : Nat) : List (Int × Nat) :=
  let n := size - 1
  let center : Nat := n / 2
  let c : Int := center
  [(c, 0), (c - 1, 1), (c, 1), (c - 1, 2)] ++
    (List.range' 3 (n - 3)).flatMap
      (fun k =>
        if k % 2 = 0 then [(c - ((k / 2 : Nat) : Int), k)]
        else [(c - ((k / 2 : Nat) : Int) - 1, k), (c - ((k / 2 : Nat) : Int), k)])

/-- Cells `defy[i][k]` read by the closure of `bessel()` on `size` nodes, in program order
(lines 174-190). -/
def bessel_reads (size : Nat) : List (Int × Nat) :=
  let n := size - 1
  let center : Nat := n / 2
  let c : Int := center
  [(c, 0), (c + 1, 0), (c, 1), (c - 1, 2), (c, 2)] ++
    (List.range' 3 (n - 2)).flatMap
      (fun k =>
        if k % 2 = 0 then
          [(c - 1 - (((k / 2 : Nat) : Int) - 1), k), (c - (((k / 2 : Nat) : Int) - 1), k)]
        else [(c - ((k / 2 : Nat) : Int), k)])

/-- The closure of `newton_finite()` with the table abstracted to a cell reader: `rd i k`
stands for `defy[i][k]`. -/
def newton_finite_on {K : Type} [Field K] (rd : Int → Nat → K) (x : List K) (v : K) : K :=
  let n := x.length - 1
  ((List.range' 1 n).foldl
    (fun (st : K × K) (i : Nat) =>
      let term := st.2 * (v - x.getD (i - 1) 0)
      (st.1 + term * rd 0 i / factorial i, term))
    (rd 0 0, 1)).1

/-- The closure of `stirling()` with the table abstracted to a cell reader. -/
def stirling_on {K : Type} [Field K] (rd : Int → Nat → K) (x : List K) (v : K) : K :=
  let n := x.length - 1
  let center : Nat := n / 2
  let c : Int := center
  let a := x.getD center 0
  let h := x.getD (center + 1) 0 - x.getD center 0
  let t := (v - a) / h
  let result0 := rd c 0 + t * (rd (c - 1) 1 + rd c 1) / 2 + t ^ 2 / 2 * rd (c - 1) 2
  ((List.range' 3 (n - 3)).foldl
    (fun (st : K × K) (k : Nat) =>
      if k % 2 = 0 then
        let term := st.2 * (t / (k : K))
        (st.1 + term * rd (c - ((k / 2 : Nat) : Int)) k, term)
      else
        let term := st.2 * ((t ^ 2 - ((k / 2 : Nat) : K) ^ 2) / ((k : K) * t))
        (st.1 + term * (rd (c - ((k / 2 : Nat) : Int) - 1) k
                        + rd (c - ((k / 2 : Nat) : Int)) k) / 2, term))
    (result0, t ^ 2 / 2)).1

/-- The closure of `bessel()` with the table abstracted to a cell reader. -/
def bessel_on {K : Type} [Field K] (rd : Int → Nat → K) (x : List K) (v : K) : K :=
  let n := x.length - 1
  let center : Nat := n / 2
  let c : Int := center
  let a := x.getD center 0
  let h := x.getD (center + 1) 0 - x.getD center 0
  let t := (v - a) / h
  let result0 := (rd c 0 + rd (c + 1) 0) / 2
    + (t - 1 / 2) * rd c 1
    + t * (t - 1) / 2 * (rd (c - 1) 2 + rd c 2) / 2
  ((List.range' 3 (n - 2)).foldl
    (fun (st : K × K) (k : Nat) =>
      if k % 2 = 0 then
        let term := st.2 / (t - 1 / 2)
        let term := term * ((t + ((k : K) / 2 - 1)) * (t - (k : K) / 2) / (k : K))
        (st.1 + term * (rd (c - 1 - (((k / 2 : Nat) : Int) - 1)) k
                        + rd (c - (((k / 2 : Nat) : Int) - 1)) k) / 2, term)
      else
        let term := st.2 * ((t - 1 / 2) / (k : K))
        (st.1 + term * rd (c - ((k / 2 : Nat) : Int)) k, term))
    (result0, t * (t - 1) / 2)).1

/-! ## The running pair of the Stirling loop -/

/-- State `(result, term)` of the loop of `stirling()` (lines 145-154) after the orders
`3, ..., m + 2`, started from `(result0, t^2 / 2)`; `stirling` is its first component for
`m = n - 3`. -/
def stirling_loop {K : Type} [Field K] (defy : List (List K)) (c : Int) (t result0 : K)
    (m : Nat) : K × K :=
  (List.range' 3 m).foldl
    (fun (st : K × K) (k : Nat) =>
      if k % 2 = 0 then
        let term := st.2 * (t / (k : K))
        (st.1 + term * entry defy (c - ((k / 2 : Nat) : Int)) k, term)
      else
        let term := st.2 * ((t ^ 2 - ((k / 2 : Nat) : K) ^ 2) / ((k : K) * t))
        (st.1 + term * (entry defy (c - ((k / 2 : Nat) : Int) - 1) k
                        + entry defy (c - ((k / 2 : Nat) : Int)) k) / 2, term))
    (result0, t ^ 2 / 2)

/-- Textbook Stirling coefficient of order `k`: `t * ∏_(i=1..(k-1)/2) (t^2 - i^2) / k!` for
odd `k` and `t^2 * ∏_(i=1..k/2-1) (t^2 - i^2) / k!` for even `k`. -/
def stirlingCoefficient {K : Type} [Field K] (t : K) (k : Nat) : K :=
  if k % 2 = 1 then
    t * (∏ i in Finset.Icc 1 ((k - 1) / 2), (t ^ 2 - (i : K) ^ 2)) / (Nat.factorial k : K)
  else
    t ^ 2 * (∏ i in Finset.Icc 1 (k / 2 - 1), (t ^ 2 - (i : K) ^ 2)) / (Nat.factorial k : K)


/-! ## Division that fails on a zero divisor -/

/-- Division modelled as failing on a zero divisor. -/
def checkedDiv {K : Type} [Field K] [DecidableEq K] (a b : K) : Option K :=
  if b = 0 then none else some (a / b)

/-- Method `differences()` with every division checked. -/
def differencesE {K : Type} [Field K] [DecidableEq K] (x y : List K) : Option (List K) :=
  (List.range' 1 (y.length - 1)).foldlM
    (fun diff i =>
      ((List.range' i (y.length - i)).reverse).foldlM
        (fun diff j => do
          let q ← checkedDiv (diff.getD j 0 - diff.getD (j - 1) 0)
            (x.getD j 0 - x.getD (j - i) 0)
          pure (diff.set j q))
        diff)
    y

/-- The closure returned by `lagrange()` with every division checked. -/
def lagrangeE {K : Type} [Field K] [DecidableEq K] (x y : List K) (v : K) : Option K :=
  (List.range y.length).foldlM
    (fun sum i => do
      let prod ← (List.range y.length).foldlM
        (fun prod j =>
          if i ≠ j then do
            let q ← checkedDiv (v - x.getD j 0) (x.getD i 0 - x.getD j 0)
            pure (prod * q)
          else pure prod)
        1
      pure (sum + y.getD i 0 * prod))
    0

/-- Body of the loop of `stirling()` (lines 146-153) for the order `k`, with every division
checked; the state is the pair `(result, term)`. -/
def stirlingE_step {K : Type} [Field K] [DecidableEq K] (defy : List (List K)) (c : Int)
    (t : K) (st : K × K) (k : Nat) : Option (K × K) :=
  if k % 2 = 0 then do
    let q ← checkedDiv t (k : K)
    pure (st.1 + st.2 * q * entry defy (c - ((k / 2 : Nat) : Int)) k, st.2 * q)
  else do
    let q ← checkedDiv (t ^ 2 - ((k / 2 : Nat) : K) ^ 2) ((k : K) * t)
    let r ← checkedDiv (st.2 * q * (entry defy (c - ((k / 2 : Nat) : Int) - 1) k
                    + entry defy (c - ((k / 2 : Nat) : Int)) k)) 2
    pure (st.1 + r, st.2 * q)

/-- The closure returned by `stirling()` with every division checked, over exact arithmetic
(the field `K`); `stirlingR` is the same closure under a rounding. -/
def stirlingE {K : Type} [Field K] [DecidableEq K] (x y : List K) (v : K) : Option K := do
  let n := x.length - 1
  let center : Nat := n / 2
  let c : Int := center
  let a := x.getD center 0
  let defy := difference_table y
  let h := x.getD (center + 1) 0 - x.getD center 0
  let t ← checkedDiv (v - a) h
  let q1 ← checkedDiv (t * (entry defy (c - 1) 1 + entry defy c 1)) 2
  let q2 ← checkedDiv (t ^ 2) 2
  let term0 ← checkedDiv (t ^ 2) 2
  let st ← (List.range' 3 (n - 3)).foldlM (stirlingE_step defy c t)
    (entry defy c 0 + q1 + q2 * entry defy (c - 1) 2, term0)
  pure st.1

/-- Body of the loop of `bessel()` (lines 181-191) for the order `k`, with every division
checked; the literal `0.5` is the constant one half, `k / 2.0` is a checked division. -/
def besselE_step {K : Type} [Field K] [DecidableEq K] (defy : List (List K)) (c : Int)
    (t : K) (st : K × K) (k : Nat) : Option (K × K) :=
  if k % 2 = 0 then do
    let term1 ← checkedDiv st.2 (t - 1 / 2)
    let h1 ← checkedDiv (k : K) 2
    let h2 ← checkedDiv (k : K) 2
    let q ← checkedDiv ((t + (h1 - 1)) * (t - h2)) (k : K)
    let r ← checkedDiv (term1 * q * (entry defy (c - 1 - (((k / 2 : Nat) : Int) - 1)) k
                    + entry defy (c - (((k / 2 : Nat) : Int) - 1)) k)) 2
    pure (st.1 + r, term1 * q)
  else do
    let q ← checkedDiv (t - 1 / 2) (k : K)
    pure (st.1 + st.2 * q * entry defy (c - ((k / 2 : Nat) : Int)) k, st.2 * q)

/-- The closure returned by `bessel()` with every division checked, over exact arithmetic
(the field `K`); `besselR` is the same closure under a rounding. -/
def besselE {K : Type} [Field K] [DecidableEq K] (x y : List K) (v : K) : Option K := do
  let n := x.length - 1
  let center : Nat := n / 2
  let c : Int := center
  let a := x.getD center 0
  let defy := difference_table y
  let h := x.getD (center + 1) 0 - x.getD center 0
  let t ← checkedDiv (v - a) h
  let q1 ← checkedDiv (entry defy c 0 + entry defy (c + 1) 0) 2
  let q2 ← checkedDiv (t * (t - 1)) 2
  let q3 ← checkedDiv (q2 * (entry defy (c - 1) 2 + entry defy c 2)) 2
  let term0 ← checkedDiv (t * (t - 1)) 2
  let st ← (List.range' 3 (n - 2)).foldlM (besselE_step defy c t)
    (q1 + (t - 1 / 2) * entry defy c 1 + q3, term0)
  pure st.1

/-! ## Rounded arithmetic

An IEEE 754 operation on `double` returns the exact result rounded to a representable
value.  The definitions whose name ends in `R` are the checked methods with the rounding
`rnd` applied to the result of every arithmetic operation; `rnd := id` is exact arithmetic,
`rnd := roundDouble` (over `ℚ`) is arithmetic on `double` as long as no result overflows. -/

/-- The power `2 ^ e` for an integer exponent. -/
def twoPow (e : Int) : ℚ :=
  if 0 ≤ e then ((2 ^ e.toNat : Nat) : ℚ) else 1 / ((2 ^ (-e).toNat : Nat) : ℚ)

/-- Number of halvings that bring `n` below `2`, at most `fuel` of them. -/
def halvings : Nat → Nat → Nat
  | 0, _ => 0
  | fuel + 1, n => if n < 2 then 0 else halvings fuel (n / 2) + 1

/-- The integer `e` with `2 ^ e ≤ q < 2 ^ (e + 1)`, for `q > 0`: the binary logarithms of
numerator and denominator differ from it by at most one. -/
def floorLog2 (q : ℚ) : Int :=
  let e : Int := (halvings q.num.natAbs q.num.natAbs : Int) - (halvings q.den q.den : Int)
  if twoPow e ≤ q then e else e - 1

/-- Nearest natural number to `m ≥ 0`, a tie going to the even neighbour. -/
def roundHalfEven (m : ℚ) : Nat :=
  let f : Nat := m.num.natAbs / m.den
  if m - (f : ℚ) < 1 / 2 then f
  else if 1 / 2 < m - (f : ℚ) then f + 1
  else if f % 2 = 0 then f else f + 1

/-- Rounding of a real result to binary64 (round to nearest, ties to even): 53 significant
bits, least exponent `-1022` (below it the spacing stays `2 ^ (-1074)`: subnormal numbers).
Overflow to infinity is not modelled. -/
def roundDouble (q : ℚ) : ℚ :=
  if q = 0 then 0
  else
    let a : ℚ := if q < 0 then -q else q
    let ulp : ℚ := twoPow (max (floorLog2 a) (-1022) - 52)
    let r : ℚ := (roundHalfEven (a / ulp) : ℚ) * ulp
    if q < 0 then -r else r

/-- Division failing on a zero divisor, the quotient rounded by `rnd`. -/
def checkedDivR {K : Type} [Field K] [DecidableEq K] (rnd : K → K) (a b : K) : Option K :=
  if b = 0 then none else some (rnd (a / b))

/-- Method `difference_table()` (lines 295-310) with every difference rounded by `rnd`. -/
def difference_tableR {K : Type} [Field K] (rnd : K → K) (y : List K) : List (List K) :=
  let defy0 : List (List K) := List.replicate y.length (List.replicate y.length 0)
  let defy1 := (List.range y.length).foldl (fun defy i => setEntry defy i 0 (y.getD i 0)) defy0
  (List.range' 1 (y.length - 1)).foldl
    (fun defy i =>
      (List.range (y.length - 1)).foldl
        (fun defy j =>
          setEntry defy i j
            (rnd (entry defy ((j : Int) + 1) (i - 1) - entry defy (j : Int) (i - 1))))
        defy)
    defy1

/-- Body of the loop of `stirling()` (lines 146-153) for the order `k`, with every division
checked and every result rounded by `rnd`; `std::pow(t, 2)` is the rounded square. -/
def stirlingR_step {K : Type} [Field K] [DecidableEq K] (rnd : K → K)
    (defy : List (List K)) (c : Int) (t : K) (st : K × K) (k : Nat) : Option (K × K) :=
  if k % 2 = 0 then do
    let q ← checkedDivR rnd t (k : K)
    pure (rnd (st.1 + rnd (rnd (st.2 * q) * entry defy (c - ((k / 2 : Nat) : Int)) k)),
      rnd (st.2 * q))
  else do
    let q ← checkedDivR rnd (rnd (rnd (t ^ 2) - rnd (((k / 2 : Nat) : K) ^ 2)))
      (rnd ((k : K) * t))
    let r ← checkedDivR rnd
      (rnd (rnd (st.2 * q) * rnd (entry defy (c - ((k / 2 : Nat) : Int) - 1) k
                    + entry defy (c - ((k / 2 : Nat) : Int)) k))) 2
    pure (rnd (st.1 + r), rnd (st.2 * q))

/-- The closure returned by `stirling()` (lines 130-158) with every division checked and
every result rounded by `rnd`. -/
def stirlingR {K : Type} [Field K] [DecidableEq K] (rnd : K → K) (x y : List K) (v : K) :
    Option K := do
  let n := x.length - 1
  let center : Nat := n / 2
  let c : Int := center
  let a := x.getD center 0
  let defy := difference_tableR rnd y
  let h := rnd (x.getD (center + 1) 0 - x.getD center 0)
  let t ← checkedDivR rnd (rnd (v - a)) h
  let q1 ← checkedDivR rnd (rnd (t * rnd (entry defy (c - 1) 1 + entry defy c 1))) 2
  let q2 ← checkedDivR rnd (rnd (t ^ 2)) 2
  let term0 ← checkedDivR rnd (rnd (t ^ 2)) 2
  let st ← (List.range' 3 (n - 3)).foldlM (stirlingR_step rnd defy c t)
    (rnd (rnd (entry defy c 0 + q1) + rnd (q2 * entry defy (c - 1) 2)), term0)
  pure st.1

/-- Body of the loop of `bessel()` (lines 181-191) for the order `k`, with every division
checked and every result rounded by `rnd`. -/
def besselR_step {K : Type} [Field K] [DecidableEq K] (rnd : K → K)
    (defy : List (List K)) (c : Int) (t : K) (st : K × K) (k : Nat) : Option (K × K) :=
  if k % 2 = 0 then do
    let term1 ← checkedDivR rnd st.2 (rnd (t - 1 / 2))
    let h1 ← checkedDivR rnd (k : K) 2
    let h2 ← checkedDivR rnd (k : K) 2
    let q ← checkedDivR rnd (rnd (rnd (t + rnd (h1 - 1)) * rnd (t - h2))) (k : K)
    let r ← checkedDivR rnd
      (rnd (rnd (term1 * q) * rnd (entry defy (c - 1 - (((k / 2 : Nat) : Int) - 1)) k
                    + entry defy (c - (((k / 2 : Nat) : Int) - 1)) k))) 2
    pure (rnd (st.1 + r), rnd (term1 * q))
  else do
    let q ← checkedDivR rnd (rnd (t - 1 / 2)) (k : K)
    pure (rnd (st.1 + rnd (rnd (st.2 * q) * entry defy (c - ((k / 2 : Nat) : Int)) k)),
      rnd (st.2 * q))

/-- The closure returned by `bessel()` (lines 164-196) with every division checked and
every result rounded by `rnd`. -/
def besselR {K : Type} [Field K] [DecidableEq K] (rnd : K → K) (x y : List K) (v : K) :
    Option K := do
  let n := x.length - 1
  let center : Nat := n / 2
  let c : Int := center
  let a := x.getD center 0
  let defy := difference_tableR rnd y
  let h := rnd (x.getD (center + 1) 0 - x.getD center 0)
  let t ← checkedDivR rnd (rnd (v - a)) h
  let q1 ← checkedDivR rnd (rnd (entry defy c 0 + entry defy (c + 1) 0)) 2
  let q2 ← checkedDivR rnd (rnd (t * rnd (t - 1))) 2
  let q3 ← checkedDivR rnd (rnd (q2 * rnd (entry defy (c - 1) 2 + entry defy c 2))) 2
  let term0 ← checkedDivR rnd (rnd (t * rnd (t - 1))) 2
  let st ← (List.range' 3 (n - 2)).foldlM (besselR_step rnd defy c t)
    (rnd (rnd (q1 + rnd (rnd (t - 1 / 2) * entry defy c 1)) + q3), term0)
  pure st.1

/-! ## Symbolic rendering

`std::to_string` belongs to the C++ standard library; the renderers take it as the
parameter `to_string`. -/

/-- The `std::accumulate` call of the renderers (lines 213-216, 224-227): joins the strings
with the separator `sep`, and adds no separator while the accumulated string is empty. -/
def accumulate (sep : String) (parts : List String) : String :=
  parts.foldl (fun a b => if a.isEmpty then b else a ++ sep ++ b) ""

/-- Method `lagrange_latex()` (lines 198-228). -/
def lagrange_latex {K : Type} [Field K] (to_string : K → String) (x y : List K) : String :=
  let terms := (List.range x.length).foldl
    (fun (terms : List String) (i : Nat) =>
      let term_parts := (List.range x.length).foldl
        (fun (term_parts : List String) (j : Nat) =>
          if i ≠ j then term_parts ++ ["(x - " ++ to_string (x.getD j 0) ++ ")"]
          else term_parts)
        []
      let term :=
        if !term_parts.isEmpty then
          to_string (y.getD i 0) ++ " * " ++ accumulate " * " term_parts
        else to_string (y.getD i 0)
      terms ++ [term])
    []
  accumulate " + " terms

/-- Method `newton_separated_latex()` (lines 229-258); the divided differences are recomputed
in place by the same loops as in `differences()`. -/
def newton_separated_latex {K : Type} [Field K] (to_string : K → String) (x y : List K) :
    String :=
  let diff := (List.range' 1 (y.length - 1)).foldl
    (fun diff i =>
      ((List.range' i (y.length - i)).reverse).foldl
        (fun diff j =>
          diff.set j ((diff.getD j 0 - diff.getD (j - 1) 0) / (x.getD j 0 - x.getD (j - i) 0)))
        diff)
    y
  let terms := (List.range' 1 (x.length - 1)).foldl
    (fun (terms : List String) (i : Nat) =>
      let term_parts := (List.range i).foldl
        (fun (term_parts : List String) (j : Nat) =>
          term_parts ++ ["(x - " ++ to_string (x.getD j 0) ++ ")"])
        []
      let term := to_string (diff.getD i 0) ++ " * " ++ accumulate " * " term_parts
      terms ++ [term])
    [to_string (diff.getD 0 0)]
  accumulate " + " terms

/-- Method `newton_finite_latex()` (lines 259-288). -/
def newton_finite_latex {K : Type} [Field K] (to_string : K → String) (x y : List K) :
    String :=
  let diff := (List.range' 1 (y.length - 1)).foldl
    (fun diff i =>
      ((List.range' i (y.length - i)).reverse).foldl
        (fun diff j =>
          diff.set j ((diff.getD j 0 - diff.getD (j - 1) 0) / (x.getD j 0 - x.getD (j - i) 0)))
        diff)
    y
  let terms := (List.range' 1 (x.length - 1)).foldl
    (fun (terms : List String) (i : Nat) =>
      let term_parts := (List.range i).foldl
        (fun (term_parts : List String) (j : Nat) =>
          term_parts ++ ["(x - " ++ to_string (x.getD j 0) ++ ")"])
        []
      let term := to_string (diff.getD i 0) ++ " * " ++ accumulate " * " term_parts
      terms ++ [term])
    [to_string (diff.getD 0 0)]
  accumulate " + " terms

/-- Method `to_latex()` (lines 355-366): dispatch on the method tag, with the string
`"Unknown"` as the default case. -/
def to_latex {K : Type} [Field K] (to_string : K → String) (method : InterpolationMethod)
    (x y : List K) : String :=
  match method with
  | .Lagrange => lagrange_latex to_string x y
  | .NewtonSeparated => newton_separated_latex to_string x y
  | .NewtonFinite => newton_finite_latex to_string x y
  | _ => "Unknown"

/-- A rendering read as a sum of products: each term is a literal coefficient with the nodes
`a` of its factors `(x - a)`. -/
def renderTerms {K : Type} [Field K] (to_string : K → String) (terms : List (K × List K)) :
    String :=
  accumulate " + "
    (terms.map (fun t =>
      if t.2.isEmpty then to_string t.1
      else to_string t.1 ++ " * "
        ++ accumulate " * " (t.2.map (fun a => "(x - " ++ to_string a ++ ")"))))

/-- Value of a sum of products at `x = v`: `' + '` is addition, `' * '` multiplication. -/
def sumOfProducts {K : Type} [Field K] (terms : List (K × List K)) (v : K) : K :=
  (terms.map (fun t => t.1 * (t.2.map (fun a => v - a)).prod)).sum

/-- The terms written by `lagrange_latex()`: for every `i` the coefficient `y[i]` and the
factors `(x - x[j])`, `j ≠ i`, in increasing `j`. -/
def lagrange_latex_terms {K : Type} [Field K] (x y : List K) : List (K × List K) :=
  (List.range x.length).map
    (fun i => (y.getD i 0, ((List.range x.length).filter (fun j => i ≠ j)).map
      (fun j => x.getD j 0)))

/-! ## The running pair of the Bessel loop -/

/-- State `(result, term)` of the loop of `bessel()` (lines 180-192) after the orders
`3, ..., m + 2`, started from `(result0, t (t - 1) / 2)`; `bessel` is its first component for
`m = n - 2`. -/
def bessel_loop {K : Type} [Field K] (defy : List (List K)) (c : Int) (t result0 : K)
    (m : Nat) : K × K :=
  (List.range' 3 m).foldl
    (fun (st : K × K) (k : Nat) =>
      if k % 2 = 0 then
        let term := st.2 / (t - 1 / 2)
        let term := term * ((t + ((k : K) / 2 - 1)) * (t - (k : K) / 2) / (k : K))
        (st.1 + term * (entry defy (c - 1 - (((k / 2 : Nat) : Int) - 1)) k
                        + entry defy (c - (((k / 2 : Nat) : Int) - 1)) k) / 2, term)
      else
        let term := st.2 * ((t - 1 / 2) / (k : K))
        (st.1 + term * entry defy (c - ((k / 2 : Nat) : Int)) k, term))
    (result0, t * (t - 1) / 2)

/-- Textbook product `B_m(t) = ∏_(i=1..m) (t + i - 1) (t - i)` of the Bessel coefficients. -/
def besselProduct {K : Type} [Field K] (t : K) (m : Nat) : K :=
  ∏ i in Finset.Icc 1 m, (t + (i : K) - 1) * (t - (i : K))

/-- The terms written by `newton_separated_latex()`: term `i` has the coefficient
`differences()[i]` and the factors `(x - x[0]) ... (x - x[i-1])`, in that order. -/
def newton_separated_latex_terms {K : Type} [Field K] (x y : List K) : List (K × List K) :=
  (List.range x.length).map
    (fun i => ((differences x y).getD i 0, (List.range i).map (fun j => x.getD j 0)))

/-! ## Literals written by `std::to_string` and read back

`std::to_string(double)` formats with `"%f"`: the decimal expansion with six digits after the
point, rounded to nearest.  `to_string6` is that format on `ℚ`, `readDecimal` reads such a
literal back, and `readExpression` reads a rendered string as a sum of products. -/

/-- Model of `std::to_string(double)` (format `"%f"`) on finite values: sign, integer digits,
the point and six decimals of the value rounded to nearest, a tie going to the even digit. -/
def to_string6 (q : ℚ) : String :=
  let s : Nat := roundHalfEven ((if q < 0 then -q else q) * 1000000)
  let frac : String := Nat.repr (s % 1000000)
  (if q < 0 then "-" else "") ++ Nat.repr (s / 1000000) ++ "."
    ++ String.mk (List.replicate (6 - frac.length) '0') ++ frac

/-- The number written by a non-empty string of decimal digits. -/
def readDigits (cs : List Char) : Option Nat :=
  if cs = [] then none
  else cs.foldlM (fun n c => if c.isDigit then some (10 * n + (c.toNat - 48)) else none) 0

/-- The number written by `digits.digits`. -/
def readUnsigned (cs : List Char) : Option ℚ := do
  let i ← readDigits (cs.takeWhile (fun c => c ≠ '.'))
  let f ← readDigits ((cs.dropWhile (fun c => c ≠ '.')).drop 1)
  pure ((i : ℚ) + (f : ℚ) / 10 ^ ((cs.dropWhile (fun c => c ≠ '.')).drop 1).length)

/-- The number written by a decimal literal `[-]digits.digits`. -/
def readDecimal (s : String) : Option ℚ :=
  match s.data with
  | '-' :: cs => (readUnsigned cs).map (fun q => -q)
  | cs => readUnsigned cs

/-- The words of a line, cut at every blank; `cur` is the word being read. -/
def splitBlanks : List Char → List Char → List (List Char)
  | [], cur => [cur]
  | c :: cs, cur => if c = ' ' then cur :: splitBlanks cs [] else splitBlanks cs (cur ++ [c])

/-- What the reader of a rendering expects next: an operator after the complete term
`(c, fs)`, a coefficient, or the next word of a factor `* (x - a)` of the term `(c, fs)`. -/
inductive ReadState (K : Type) where
  | operator (c : K) (fs : List K)
  | coefficient
  | afterStar (c : K) (fs : List K)
  | afterOpening (c : K) (fs : List K)
  | afterMinus (c : K) (fs : List K)

/-- Reading of the words of a rendering, with the terms `done` read so far: `+` closes the
current term, `* (x - a)` adds the factor `(x - a)` to it. -/
def readWords {K : Type} (readLiteral : String → Option K) :
    List (List Char) → List (K × List K) → ReadState K → Option (List (K × List K))
  | [], done, .operator c fs => some (done ++ [(c, fs)])
  | [], _, _ => none
  | w :: ws, done, .operator c fs =>
    if w = ['+'] then readWords readLiteral ws (done ++ [(c, fs)]) .coefficient
    else if w = ['*'] then readWords readLiteral ws done (.afterStar c fs)
    else none
  | w :: ws, done, .coefficient =>
    match readLiteral (String.mk w) with
    | some c => readWords readLiteral ws done (.operator c [])
    | none => none
  | w :: ws, done, .afterStar c fs =>
    if w = ['(', 'x'] then readWords readLiteral ws done (.afterOpening c fs) else none
  | w :: ws, done, .afterOpening c fs =>
    if w = ['-'] then readWords readLiteral ws done (.afterMinus c fs) else none
  | w :: ws, done, .afterMinus c fs =>
    if w.getLast? = some ')' then
      match readLiteral (String.mk w.dropLast) with
      | some a => readWords readLiteral ws done (.operator c (fs ++ [a]))
      | none => none
    else none

/-- Reading of a rendered string as a sum (`' + '`) of products (`' * '`) of a literal
coefficient and factors `(x - a)`; the literals are read by `readLiteral`. -/
def readExpression {K : Type} (readLiteral : String → Option K) (s : String) :
    Option (List (K × List K)) :=
  readWords readLiteral (splitBlanks s.data []) [] .coefficient

/-- Value of a rendered string at `x = v`. -/
def evalExpression {K : Type} [Field K] (readLiteral : String → Option K) (s : String)
    (v : K) : Option K :=
  (readExpression readLiteral s).map (fun terms => sumOfProducts terms v)

/-- The literal of `a` is exact: `to_string a` is a non-empty word without blanks that
`readLiteral` reads back as `a`. -/
def ExactLiteral {K : Type} (to_string : K → String) (readLiteral : String → Option K)
    (a : K) : Prop :=
  to_string a ≠ "" ∧ ' ' ∉ (to_string a).data ∧ readLiteral (to_string a) = some a

/-- The words of a line after its first one, each with the blank that precedes it. -/
def blankBefore : List (List Char) → List Char
  | [] => []
  | w :: ws => ' ' :: (w ++ blankBefore ws)

/-- The words written for the factors `(x - a)` of a term, each with its `*`. -/
def factorWords {K : Type} (to_string : K → String) : List K → List (List Char)
  | [] => []
  | a :: fs =>
    ['*'] :: ['(', 'x'] :: ['-'] :: ((to_string a).data ++ [')']) :: factorWords to_string fs

/-- The words written for the terms after the first one, each with its `+`. -/
def termWords {K : Type} (to_string : K → String) : List (K × List K) → List (List Char)
  | [] => []
  | t :: rest =>
    ['+'] :: (to_string t.1).data :: (factorWords to_string t.2 ++ termWords to_string rest)

/-! ## File parser (`src/include/file_parser.hpp`)

The file is an `Option (List String)`: `none` when it cannot be opened, otherwise the lines
that `std::getline` returns, in order.  Number reading (`iss >> value`) is the parameter
`readNumber`, a partial function from the rest of the line to the number read and what
follows it. -/

/-- The aggregate `struct ParsingResult` (lines 8-13). -/
structure ParsingResult (K : Type) where
  status : Bool
  firstValue : K
  x_values : List K
  y_values : List K

/-- The extraction `iss >> x >> y` (line 37): two numbers read one after the other. -/
def readPair {K : Type} (readNumber : String → Option (K × String)) (line : String) :
    Option (K × K) :=
  match readNumber line with
  | none => none
  | some (x, rest) =>
    match readNumber rest with
    | none => none
    | some (y, _) => some (x, y)

/-- The `while (std::getline(file, line))` loop of `parse_file` (lines 34-42) over the
remaining lines, with the vectors filled so far; `none` stands for the `return` of line 38. -/
def parse_lines {K : Type} (readNumber : String → Option (K × String)) :
    List String → List K → List K → Option (List K × List K)
  | [], x_values, y_values => some (x_values, y_values)
  | line :: rest, x_values, y_values =>
    match readPair readNumber line with
    | none => none
    | some (x, y) => parse_lines readNumber rest (x_values ++ [x]) (y_values ++ [y])

/-- Function `parse_file` (lines 15-45). -/
def parse_file {K : Type} [Field K] (readNumber : String → Option (K × String))
    (file : Option (List String)) : ParsingResult K :=
  match file with
  | none => ⟨false, 0, [], []⟩
  | some [] => ⟨false, 0, [], []⟩
  | some (line :: rest) =>
    match readNumber line with
    | none => ⟨false, 0, [], []⟩
    | some (firstValue, _) =>
      match parse_lines readNumber rest [] [] with
      | none => ⟨false, 0, [], []⟩
      | some (x_values, y_values) => ⟨true, firstValue, x_values, y_values⟩
/-! ## Vector reads and writes -/

theorem getD_set_eq {K : Type} [Field K] (l : List K) (j k : Nat) (e : K) :
    (l.set j e).getD k 0 = if k = j ∧ j < l.length then e else l.getD k 0 := by
  simp only [List.getD_eq_getElem?_getD, List.getElem?_set]
  by_cases hkj : j = k
  · subst hkj
    by_cases hlt : j < l.length
    · simp [hlt]
    · simp [hlt, List.getElem?_eq_none (Nat.le_of_not_lt hlt)]
  · have hkj2 : ¬ k = j := fun h => hkj h.symm
    simp [hkj, hkj2]

/-! ## The in-place recurrence of `differences` -/

/-- One downward sweep of the inner loop of `differences`, for the counters
`s + m - 1, ..., s`: every touched cell receives the quotient built from the old
values of the cell and of its left neighbour; the other cells are unchanged. -/
theorem sweep_spec {K : Type} [Field K] (x : List K) (i : Nat) (m : Nat) :
    ∀ (s : Nat) (diff : List K), 1 ≤ s → s + m ≤ diff.length →
      (((List.range' s m).reverse).foldl
          (fun diff j =>
            diff.set j ((diff.getD j 0 - diff.getD (j - 1) 0) / (x.getD j 0 - x.getD (j - i) 0)))
          diff).length = diff.length ∧
      ∀ j, (((List.range' s m).reverse).foldl
          (fun diff j =>
            diff.set j ((diff.getD j 0 - diff.getD (j - 1) 0) / (x.getD j 0 - x.getD (j - i) 0)))
          diff).getD j 0 =
        if s ≤ j ∧ j < s + m then
          (diff.getD j 0 - diff.getD (j - 1) 0) / (x.getD j 0 - x.getD (j - i) 0)
        else diff.getD j 0 := by
  induction m with
  | zero =>
    intro s diff _ _
    refine ⟨rfl, fun j => ?_⟩
    have : ¬ (s ≤ j ∧ j < s + 0) := by omega
    rw [if_neg this]
    rfl
  | succ m ih =>
    intro s diff hs hlen
    obtain ⟨hl, hv⟩ := ih (s + 1) diff (by omega) (by omega)
    simp only [List.range'_succ, List.reverse_cons, List.foldl_append, List.foldl_cons,
      List.foldl_nil]
    refine ⟨by rw [List.length_set, hl], fun j => ?_⟩
    rw [getD_set_eq, hl, hv s, hv (s - 1), hv j]
    have h1 : ¬ (s + 1 ≤ s ∧ s < s + 1 + m) := by omega
    have h2 : ¬ (s + 1 ≤ s - 1 ∧ s - 1 < s + 1 + m) := by omega
    rw [if_neg h1, if_neg h2]
    by_cases hjs : j = s
    · subst hjs
      have h3 : j = j ∧ j < diff.length := ⟨rfl, by omega⟩
      have h4 : j ≤ j ∧ j < j + (m + 1) := by omega
      rw [if_pos h3, if_pos h4]
    · have h3 : ¬ (j = s ∧ s < diff.length) := fun h => hjs h.1
      rw [if_neg h3]
      by_cases h5 : s + 1 ≤ j ∧ j < s + 1 + m
      · have h6 : s ≤ j ∧ j < s + (m + 1) := by omega
        rw [if_pos h5, if_pos h6]
      · have h6 : ¬ (s ≤ j ∧ j < s + (m + 1)) := by omega
        rw [if_neg h5, if_neg h6]

/-! ## The loop invariant of `differences` -/

theorem diffInv_init {K : Type} [Field K] (x y : List K) : DiffInv x y 0 y := by
  refine ⟨rfl, fun j _ => ?_⟩
  rw [if_pos (Nat.zero_le j)]
  rfl

/-- The sweep of order `i` turns the invariant for `i - 1` into the invariant for `i`. -/
theorem diffInv_sweep {K : Type} [Field K] (x y D : List K) (i : Nat) (hi : 1 ≤ i)
    (hin : i < y.length) (h : DiffInv x y (i - 1) D) :
    DiffInv x y i
      (((List.range' i (y.length - i)).reverse).foldl
        (fun diff j =>
          diff.set j ((diff.getD j 0 - diff.getD (j - 1) 0) / (x.getD j 0 - x.getD (j - i) 0)))
        D) := by
  obtain ⟨hl, hv⟩ := h
  obtain ⟨hl2, hv2⟩ := sweep_spec x i (y.length - i) i D hi (by omega)
  refine ⟨by rw [hl2, hl], fun j hj => ?_⟩
  rw [hv2 j]
  by_cases hij : i ≤ j
  · have h1 : i ≤ j ∧ j < i + (y.length - i) := by omega
    rw [if_pos h1, if_pos hij, hv j hj, hv (j - 1) (by omega)]
    have h2 : i - 1 ≤ j := by omega
    have h3 : i - 1 ≤ j - 1 := by omega
    rw [if_pos h2, if_pos h3]
    obtain ⟨i, rfl⟩ : ∃ i0, i = i0 + 1 := ⟨i - 1, by omega⟩
    have e1 : j - (i + 1 - 1) = j - (i + 1) + 1 := by omega
    have e2 : j - 1 - (i + 1 - 1) = j - (i + 1) := by omega
    have e3 : j - (i + 1) + i + 1 = j := by omega
    rw [e1, e2]
    show _ = (dividedDifference x y (j - (i + 1) + 1) i - dividedDifference x y (j - (i + 1)) i)
      / (x.getD (j - (i + 1) + i + 1) 0 - x.getD (j - (i + 1)) 0)
    rw [e3]
    rfl
  · have h1 : ¬ (i ≤ j ∧ j < i + (y.length - i)) := fun h => hij h.1
    rw [if_neg h1, if_neg hij, hv j hj]
    by_cases h2 : i - 1 ≤ j
    · have e : j = i - 1 := by omega
      rw [if_pos h2, e, Nat.sub_self]
    · rw [if_neg h2]

/-- The outer loop of `differences`, run over the orders `s, ..., s + m - 1`. -/
theorem diffInv_outer {K : Type} [Field K] (x y : List K) (m : Nat) :
    ∀ (s : Nat) (D : List K), 1 ≤ s → s + m ≤ y.length → DiffInv x y (s - 1) D →
      DiffInv x y (s + m - 1)
        ((List.range' s m).foldl
          (fun diff i =>
            ((List.range' i (y.length - i)).reverse).foldl
              (fun diff j =>
                diff.set j
                  ((diff.getD j 0 - diff.getD (j - 1) 0) / (x.getD j 0 - x.getD (j - i) 0)))
              diff)
          D) := by
  induction m with
  | zero => intro s D _ _ h; exact h
  | succ m ih =>
    intro s D hs hlen h
    rw [List.range'_succ, List.foldl_cons]
    have hstep := diffInv_sweep x y D s hs (by omega) h
    have := ih (s + 1) _ (by omega) (by omega) hstep
    have e : s + 1 + m - 1 = s + (m + 1) - 1 := by omega
    rw [e] at this
    exact this

/-- On return, `differences` holds the anchored divided differences. -/
theorem differences_inv {K : Type} [Field K] (x y : List K) (hn : 1 ≤ y.length) :
    DiffInv x y (y.length - 1) (differences x y) := by
  have := diffInv_outer x y (y.length - 1) 1 y (le_refl 1) (by omega) (diffInv_init x y)
  have e : 1 + (y.length - 1) - 1 = y.length - 1 := by omega
  rw [e] at this
  exact this

theorem differences_getD {K : Type} [Field K] (x y : List K) (i : Nat) (hi : i < y.length) :
    (differences x y).getD i 0 = dividedDifference x y 0 i := by
  obtain ⟨_, hv⟩ := differences_inv x y (by omega)
  rw [hv i hi]
  by_cases h : y.length - 1 ≤ i
  · have e : i = y.length - 1 := by omega
    rw [if_pos h, e, Nat.sub_self]
  · rw [if_neg h]

/-! ## Loops as finite sums and products -/

theorem foldl_add_range {K : Type} [Field K] (f : Nat → K) (a : K) (n : Nat) :
    (List.range n).foldl (fun s i => s + f i) a = a + ∑ i in Finset.range n, f i := by
  induction n with
  | zero => simp
  | succ n ih =>
    rw [List.range_succ, List.foldl_append, ih, Finset.sum_range_succ]
    simp [add_assoc]

theorem foldl_add_range' {K : Type} [Field K] (f : Nat → K) (a : K) (n : Nat) :
    (List.range' 1 n).foldl (fun s i => s + f i) a
      = a + ∑ i in Finset.range n, f (i + 1) := by
  rw [List.range'_eq_map_range, List.foldl_map, foldl_add_range (fun i => f (1 + i)) a n]
  congr 1
  exact Finset.sum_congr rfl (fun i _ => by rw [Nat.add_comm])

theorem foldl_mul_range {K : Type} [Field K] (g : Nat → K) (n : Nat) :
    (List.range n).foldl (fun p j => p * g j) 1 = ∏ j in Finset.range n, g j := by
  induction n with
  | zero => simp
  | succ n ih =>
    rw [List.range_succ, List.foldl_append, ih, Finset.prod_range_succ]
    simp

theorem foldl_mul_range_skip {K : Type} [Field K] (g : Nat → K) (i n : Nat) :
    (List.range n).foldl (fun p j => if i ≠ j then p * g j else p) 1
      = ∏ j in (Finset.range n).erase i, g j := by
  have h : ∀ m, (List.range m).foldl (fun p j => if i ≠ j then p * g j else p) 1
      = ∏ j in Finset.range m, if i ≠ j then g j else 1 := by
    intro m
    induction m with
    | zero => simp
    | succ m ih =>
      rw [List.range_succ, List.foldl_append, ih, Finset.prod_range_succ]
      by_cases him : i = m
      · simp [him]
      · simp [him]
  rw [h, ← Finset.prod_filter, Finset.filter_ne]

/-! ## The interpolation polynomial -/

theorem nodeX_injOn {K : Type} [Field K] (x : List K) (hx : x.Nodup) (s : Finset Nat)
    (hs : ∀ i ∈ s, i < x.length) : Set.InjOn (nodeX x) s := by
  intro i hi j hj hij
  have hi2 := hs i (Finset.mem_coe.mp hi)
  have hj2 := hs j (Finset.mem_coe.mp hj)
  simp only [nodeX] at hij
  rw [List.getD_eq_getElem x 0 hi2, List.getD_eq_getElem x 0 hj2] at hij
  exact (List.Nodup.getElem_inj_iff hx).mp hij

/-- The value computed by `lagrange` is the value of the interpolation polynomial. -/
theorem lagrange_eq_eval {K : Type} [Field K] (x y : List K) (v : K) :
    lagrange x y v
      = Polynomial.eval v
          (Lagrange.interpolate (Finset.range y.length) (nodeX x) (nodeX y)) := by
  unfold lagrange
  rw [foldl_add_range, zero_add, Lagrange.interpolate_apply, Polynomial.eval_finset_sum]
  refine Finset.sum_congr rfl (fun i _ => ?_)
  rw [foldl_mul_range_skip, Polynomial.eval_mul, Polynomial.eval_C, Lagrange.basis,
    Polynomial.eval_prod]
  congr 1
  refine Finset.prod_congr rfl (fun j _ => ?_)
  simp only [Lagrange.basisDivisor, Polynomial.eval_mul, Polynomial.eval_C, Polynomial.eval_sub,
    Polynomial.eval_X, nodeX]
  rw [div_eq_mul_inv, mul_comm]

theorem coeff_mul_basisDivisor {K : Type} [Field K] (P : Polynomial K) (p q : K) (m : Nat)
    (h : P.coeff (m + 1) = 0) :
    (P * Lagrange.basisDivisor p q).coeff (m + 1) = (p - q)⁻¹ * P.coeff m := by
  have e : P * Lagrange.basisDivisor p q
      = Polynomial.C (p - q)⁻¹ * (P * Polynomial.X - P * Polynomial.C q) := by
    unfold Lagrange.basisDivisor
    ring
  rw [e, Polynomial.coeff_C_mul, Polynomial.coeff_sub, Polynomial.coeff_mul_X,
    Polynomial.coeff_mul_C, h]
  ring

/-- The coefficient of `X ^ m` of the interpolation polynomial through the nodes
`a, ..., a + m` is the divided difference `f[x_a, ..., x_(a+m)]`. -/
theorem coeff_interpolate_Ico {K : Type} [Field K] (x y : List K) (m : Nat) :
    ∀ a : Nat, Set.InjOn (nodeX x) (Finset.Ico a (a + m + 1)) →
      (Lagrange.interpolate (Finset.Ico a (a + m + 1)) (nodeX x) (nodeX y)).coeff m
        = dividedDifference x y a m := by
  induction m with
  | zero =>
    intro a _
    have e : Finset.Ico a (a + 0 + 1) = {a} := by
      ext k; simp only [Finset.mem_Ico, Finset.mem_singleton]; omega
    rw [e, Lagrange.interpolate_singleton, Polynomial.coeff_C_zero]
    rfl
  | succ m ih =>
    intro a hinj
    have hi : a + m + 1 ∈ Finset.Ico a (a + (m + 1) + 1) := by
      simp only [Finset.mem_Ico]; omega
    have hj : a ∈ Finset.Ico a (a + (m + 1) + 1) := by
      simp only [Finset.mem_Ico]; omega
    have hij : a + m + 1 ≠ a := by omega
    have e1 : (Finset.Ico a (a + (m + 1) + 1)).erase a = Finset.Ico (a + 1) (a + 1 + m + 1) := by
      ext k; simp only [Finset.mem_erase, Finset.mem_Ico]; omega
    have e2 : (Finset.Ico a (a + (m + 1) + 1)).erase (a + m + 1) = Finset.Ico a (a + m + 1) := by
      ext k; simp only [Finset.mem_erase, Finset.mem_Ico]; omega
    have hinj1 : Set.InjOn (nodeX x) (Finset.Ico (a + 1) (a + 1 + m + 1)) := by
      refine hinj.mono ?_
      intro k hk
      simp only [Finset.coe_Ico, Set.mem_Ico] at hk ⊢
      omega
    have hinj2 : Set.InjOn (nodeX x) (Finset.Ico a (a + m + 1)) := by
      refine hinj.mono ?_
      intro k hk
      simp only [Finset.coe_Ico, Set.mem_Ico] at hk ⊢
      omega
    have hd1 : (Lagrange.interpolate (Finset.Ico (a + 1) (a + 1 + m + 1)) (nodeX x)
        (nodeX y)).coeff (m + 1) = 0 := by
      apply Polynomial.coeff_eq_zero_of_degree_lt
      have := Lagrange.degree_interpolate_lt (nodeX y) hinj1
      rw [Nat.card_Ico] at this
      have e : a + 1 + m + 1 - (a + 1) = m + 1 := by omega
      rw [e] at this
      exact this
    have hd2 : (Lagrange.interpolate (Finset.Ico a (a + m + 1)) (nodeX x)
        (nodeX y)).coeff (m + 1) = 0 := by
      apply Polynomial.coeff_eq_zero_of_degree_lt
      have := Lagrange.degree_interpolate_lt (nodeX y) hinj2
      rw [Nat.card_Ico] at this
      have e : a + m + 1 - a = m + 1 := by omega
      rw [e] at this
      exact this
    rw [Lagrange.interpolate_eq_add_interpolate_erase (nodeX y) hinj hi hj hij, e1, e2,
      Polynomial.coeff_add, coeff_mul_basisDivisor _ _ _ m hd1,
      coeff_mul_basisDivisor _ _ _ m hd2, ih (a + 1) hinj1, ih a hinj2]
    show _ = (dividedDifference x y (a + 1) m - dividedDifference x y a m)
      / (x.getD (a + m + 1) 0 - x.getD a 0)
    simp only [nodeX]
    rw [div_eq_mul_inv, ← neg_sub (x.getD (a + m + 1) 0) (x.getD a 0), inv_neg]
    ring

/-- Newton's form: the interpolation polynomial through the nodes `0, ..., m` is the sum of
the anchored divided differences times the nodal products. -/
theorem interpolate_range_eq_newton {K : Type} [Field K] (x y : List K) (m : Nat) :
    Set.InjOn (nodeX x) (Finset.range (m + 1)) →
      Lagrange.interpolate (Finset.range (m + 1)) (nodeX x) (nodeX y)
        = ∑ i in Finset.range (m + 1),
            Polynomial.C (dividedDifference x y 0 i) * Lagrange.nodal (Finset.range i) (nodeX x) := by
  induction m with
  | zero =>
    intro _
    rw [Finset.range_one, Lagrange.interpolate_singleton, Finset.sum_singleton,
      Finset.range_zero, Lagrange.nodal_empty, mul_one]
    rfl
  | succ m ih =>
    intro hinj
    have hinj0 : Set.InjOn (nodeX x) (Finset.range (m + 1)) := by
      refine hinj.mono ?_
      intro k hk
      simp only [Finset.coe_range, Set.mem_Iio] at hk ⊢
      omega
    rw [Finset.sum_range_succ, ← ih hinj0]
    have hIco : Finset.range (m + 1 + 1) = Finset.Ico 0 (0 + (m + 1) + 1) := by
      rw [Finset.range_eq_Ico, Nat.zero_add]
    have hlead : (Lagrange.interpolate (Finset.range (m + 1 + 1)) (nodeX x) (nodeX y)).coeff (m + 1)
        = dividedDifference x y 0 (m + 1) := by
      rw [hIco]
      exact coeff_interpolate_Ico x y (m + 1) 0 (by rw [← hIco]; exact hinj)
    have hdeg : (Lagrange.interpolate (Finset.range (m + 1 + 1)) (nodeX x) (nodeX y)).degree
        < ((m + 1 + 1 : Nat) : WithBot Nat) := by
      have := Lagrange.degree_interpolate_lt (nodeX y) hinj
      rw [Finset.card_range] at this
      exact this
    have hnat : (Lagrange.nodal (Finset.range (m + 1)) (nodeX x)).natDegree = m + 1 := by
      rw [Lagrange.natDegree_nodal, Finset.card_range]
    have key : Lagrange.interpolate (Finset.range (m + 1 + 1)) (nodeX x) (nodeX y)
          - Polynomial.C (dividedDifference x y 0 (m + 1))
            * Lagrange.nodal (Finset.range (m + 1)) (nodeX x)
        = Lagrange.interpolate (Finset.range (m + 1)) (nodeX x) (nodeX y) := by
      apply Lagrange.eq_interpolate_of_eval_eq (nodeX y) hinj0
      · rw [Finset.card_range, Polynomial.degree_lt_iff_coeff_zero]
        intro k hk
        rw [Polynomial.coeff_sub, Polynomial.coeff_C_mul]
        by_cases hkm : k = m + 1
        · subst hkm
          have h1 : (Lagrange.nodal (Finset.range (m + 1)) (nodeX x)).coeff (m + 1) = 1 := by
            have := (Lagrange.nodal_monic (s := Finset.range (m + 1)) (v := nodeX x)).coeff_natDegree
            rw [hnat] at this
            exact this
          rw [hlead, h1, mul_one, sub_self]
        · have hk2 : m + 1 + 1 ≤ k := by omega
          have h1 : (Lagrange.nodal (Finset.range (m + 1)) (nodeX x)).coeff k = 0 :=
            Polynomial.coeff_eq_zero_of_natDegree_lt (by rw [hnat]; omega)
          have h2 : (Lagrange.interpolate (Finset.range (m + 1 + 1)) (nodeX x) (nodeX y)).coeff k
              = 0 := (Polynomial.degree_lt_iff_coeff_zero _ _).mp hdeg k hk2
          rw [h1, h2, mul_zero, sub_zero]
      · intro i hi
        have hi2 : i ∈ Finset.range (m + 1 + 1) := by
          simp only [Finset.mem_range] at hi ⊢
          omega
        rw [Polynomial.eval_sub, Polynomial.eval_mul, Lagrange.eval_nodal_at_node hi,
          mul_zero, sub_zero, Lagrange.eval_interpolate_at_node (nodeX y) hinj hi2]
    rw [← key]
    ring

/-- The value computed by `newton_separated` is the value of the interpolation polynomial,
when the abscissae are pairwise distinct. -/
theorem newton_separated_eq_eval {K : Type} [Field K] (x y : List K) (v : K)
    (hlen : x.length = y.length) (hn : 1 ≤ x.length) (hx : x.Nodup) :
    newton_separated x y v
      = Polynomial.eval v
          (Lagrange.interpolate (Finset.range y.length) (nodeX x) (nodeX y)) := by
  have hinj : Set.InjOn (nodeX x) (Finset.range (y.length - 1 + 1)) :=
    nodeX_injOn x hx _ (fun i hi => by simp only [Finset.mem_range] at hi; omega)
  have hy : y.length = y.length - 1 + 1 := by omega
  unfold newton_separated
  simp only []
  rw [foldl_add_range', hlen]
  conv_rhs => rw [hy, interpolate_range_eq_newton x y (y.length - 1) hinj]
  rw [Polynomial.eval_finset_sum, Finset.sum_range_succ', add_comm]
  congr 1
  · refine Finset.sum_congr rfl (fun i hi => ?_)
    simp only [Finset.mem_range] at hi
    rw [differences_getD x y (i + 1) (by omega), foldl_mul_range, Polynomial.eval_mul,
      Polynomial.eval_C, Lagrange.eval_nodal]
    rfl
  · rw [differences_getD x y 0 (by omega), Finset.range_zero, Lagrange.nodal_empty, mul_one,
      Polynomial.eval_C]

/-! ## Contract theorems -/

/-- C1: over exact arithmetic, for `n ≥ 1` nodes with pairwise distinct abscissae and every
index `k < n`, the Lagrange evaluator returned by `interpolate` maps `x[k]` to `y[k]`. -/
theorem lagrange_exact_at_nodes {K : Type} [Field K] (x y : List K)
    (hlen : x.length = y.length) (_hn : 1 ≤ x.length) (hx : x.Nodup)
    (k : Nat) (hk : k < x.length) :
    interpolate InterpolationMethod.Lagrange x y (x.getD k 0) = y.getD k 0 := by
  have hinj : Set.InjOn (nodeX x) (Finset.range y.length) :=
    nodeX_injOn x hx _ (fun i hi => by simp only [Finset.mem_range] at hi; omega)
  have hmem : k ∈ Finset.range y.length := by
    simp only [Finset.mem_range]; omega
  show lagrange x y (nodeX x k) = nodeX y k
  rw [lagrange_eq_eval]
  exact Lagrange.eval_interpolate_at_node (nodeX y) hinj hmem

theorem lagrange_exact_at_nodes_witness :
    ([0, 1, 2] : List ℚ).Nodup ∧
      interpolate InterpolationMethod.Lagrange ([0, 1, 2] : List ℚ) [5, 7, 11] 1 = 7 :=
  ⟨by decide!,
    lagrange_exact_at_nodes ([0, 1, 2] : List ℚ) [5, 7, 11] rfl (by decide) (by decide!) 1
      (by decide)⟩

/-- C2: over exact arithmetic, for `n ≥ 1` nodes with pairwise distinct abscissae, the
NewtonSeparated evaluator and the Lagrange evaluator return the same value at every query
point `v`. -/
theorem newton_separated_eq_lagrange {K : Type} [Field K] (x y : List K)
    (hlen : x.length = y.length) (hn : 1 ≤ x.length) (hx : x.Nodup) (v : K) :
    interpolate InterpolationMethod.NewtonSeparated x y v
      = interpolate InterpolationMethod.Lagrange x y v := by
  show newton_separated x y v = lagrange x y v
  rw [newton_separated_eq_eval x y v hlen hn hx, lagrange_eq_eval]

theorem newton_separated_eq_lagrange_witness :
    ([0, 1, 3] : List ℚ).Nodup ∧
      interpolate InterpolationMethod.NewtonSeparated ([0, 1, 3] : List ℚ) [2, 3, 11] (1 / 2)
        = interpolate InterpolationMethod.Lagrange ([0, 1, 3] : List ℚ) [2, 3, 11] (1 / 2) :=
  ⟨by decide!,
    newton_separated_eq_lagrange ([0, 1, 3] : List ℚ) [2, 3, 11] rfl (by decide) (by decide!)
      (1 / 2)⟩

/-- C3: over exact arithmetic, for every polynomial `p` of degree `< n` and every list of
`n ≥ 2` pairwise distinct nodes `x` with `y[i] = p(x[i])`, the NewtonSeparated evaluator
returns `p(v)` at every query point `v`. -/
theorem newton_separated_recovers_polynomial {K : Type} [Field K] (x y : List K)
    (p : Polynomial K) (hlen : x.length = y.length) (hn : 2 ≤ x.length) (hx : x.Nodup)
    (hdeg : p.degree < (x.length : WithBot Nat))
    (hy : ∀ i, i < x.length → y.getD i 0 = Polynomial.eval (x.getD i 0) p) (v : K) :
    interpolate InterpolationMethod.NewtonSeparated x y v = Polynomial.eval v p := by
  have hinj : Set.InjOn (nodeX x) (Finset.range y.length) :=
    nodeX_injOn x hx _ (fun i hi => by simp only [Finset.mem_range] at hi; omega)
  have hp : p = Lagrange.interpolate (Finset.range y.length) (nodeX x) (nodeX y) := by
    apply Lagrange.eq_interpolate_of_eval_eq (nodeX y) hinj
    · rw [Finset.card_range, ← hlen]
      exact hdeg
    · intro i hi
      simp only [Finset.mem_range] at hi
      exact (hy i (by omega)).symm
  show newton_separated x y v = Polynomial.eval v p
  rw [newton_separated_eq_eval x y v hlen (by omega) hx, ← hp]

/-- Concrete data of the specification for the Newton evaluator: `x = [0,1,2,3]`, `y = [1,2,9,28]`
(`p = X^3 + 1`), queried at `3/2`, gives `35/8`. -/
theorem newton_separated_recovers_polynomial_witness :
    ([0, 1, 2, 3] : List ℚ).Nodup ∧
      interpolate InterpolationMethod.NewtonSeparated ([0, 1, 2, 3] : List ℚ) [1, 2, 9, 28]
        (3 / 2) = 35 / 8 := by
  refine ⟨by decide!, ?_⟩
  have hdeg : (Polynomial.X ^ 3 + Polynomial.C 1 : Polynomial ℚ).degree
      < ((([0, 1, 2, 3] : List ℚ).length : Nat) : WithBot Nat) := by
    rw [Polynomial.degree_X_pow_add_C (by decide)]
    decide
  have h := newton_separated_recovers_polynomial ([0, 1, 2, 3] : List ℚ) [1, 2, 9, 28]
    (Polynomial.X ^ 3 + Polynomial.C 1) rfl (by decide) (by decide!) hdeg
    (by
      intro i hi
      have hi4 : i < 4 := hi
      interval_cases i <;> norm_num)
    (3 / 2)
  rw [h]
  norm_num

/-- C7: for `n ≥ 1` nodes with pairwise distinct abscissae and every `i < n`, entry `i` of
the vector returned by `differences` exists and equals the divided difference
`f[x_0, ..., x_i]` of the reference definition. -/
theorem differences_eq_dividedDifference {K : Type} [Field K] (x y : List K)
    (hlen : x.length = y.length) (hn : 1 ≤ x.length) (_hx : x.Nodup)
    (i : Nat) (hi : i < x.length) :
    (differences x y)[i]? = some (dividedDifference x y 0 i) := by
  have hl : (differences x y).length = y.length := (differences_inv x y (by omega)).1
  have hi2 : i < (differences x y).length := by omega
  rw [List.getElem?_eq_getElem hi2, ← differences_getD x y i (by omega),
    List.getD_eq_getElem _ 0 hi2]

theorem differences_eq_dividedDifference_witness :
    ([0, 1, 2, 3] : List ℚ).Nodup ∧
      (differences ([0, 1, 2, 3] : List ℚ) [1, 2, 9, 28])[2]?
        = some (dividedDifference ([0, 1, 2, 3] : List ℚ) [1, 2, 9, 28] 0 2) :=
  ⟨by decide!,
    differences_eq_dividedDifference ([0, 1, 2, 3] : List ℚ) [1, 2, 9, 28] rfl (by decide)
      (by decide!) 2 (by decide)⟩

/-- C10: for every data set of size `n ≥ 1` (abscissae not required to be distinct), the
vector returned by `differences` has length `n` and its entry 0 is `y[0]`. -/
theorem differences_head_and_length {K : Type} [Field K] (x y : List K)
    (_hlen : x.length = y.length) (hn : 1 ≤ y.length) :
    (differences x y).length = y.length ∧ (differences x y)[0]? = y[0]? := by
  have hl : (differences x y).length = y.length := (differences_inv x y hn).1
  have h0 : 0 < (differences x y).length := by omega
  have h0y : 0 < y.length := by omega
  refine ⟨hl, ?_⟩
  have := differences_getD x y 0 h0y
  rw [List.getD_eq_getElem _ 0 h0] at this
  rw [List.getElem?_eq_getElem h0, List.getElem?_eq_getElem h0y, this]
  show some (y.getD 0 0) = _
  rw [List.getD_eq_getElem _ 0 h0y]

theorem differences_head_and_length_witness :
    (differences ([4, 4, 4] : List ℚ) [3, 5, 8]).length = 3
      ∧ (differences ([4, 4, 4] : List ℚ) [3, 5, 8])[0]? = some 3 :=
  differences_head_and_length ([4, 4, 4] : List ℚ) [3, 5, 8] rfl (by decide)

/-! ## Evaluations of the finite-difference code paths -/

/-- C9: on `y = [1, 2]` the matrix returned by `difference_table` is `[[1, 0], [1, 0]]`:
the entry `M[1][0]` is `1`, not `y[1] = 2`. -/
theorem difference_table_column_zero_overwritten :
    difference_table ([1, 2] : List ℚ) = [[1, 0], [1, 0]]
      ∧ entry (difference_table ([1, 2] : List ℚ)) 1 0 ≠ ([1, 2] : List ℚ).getD 1 0 := by
  decide!

/-- C8: on `y = [1, 3]` the matrix returned by `difference_table` is `[[1, 0], [2, 0]]`:
`M[0][1] = 0` whereas `M[1][0] - M[0][0] = 1`. -/
theorem difference_table_not_forward_pyramid :
    difference_table ([1, 3] : List ℚ) = [[1, 0], [2, 0]]
      ∧ entry (difference_table ([1, 3] : List ℚ)) 0 1
          ≠ entry (difference_table ([1, 3] : List ℚ)) 1 0
            - entry (difference_table ([1, 3] : List ℚ)) 0 0 := by
  decide!

/-- C4: on the equally spaced nodes `x = [0, 1]`, `y = [1, 2]` (samples of `X + 1`) the
NewtonFinite evaluator returns `1` at `x[1] = 1`, where `y[1] = 2` and the Lagrange
evaluator returns `2`. -/
theorem newton_finite_misses_node :
    interpolate InterpolationMethod.NewtonFinite ([0, 1] : List ℚ) [1, 2] 1 = 1
      ∧ interpolate InterpolationMethod.Lagrange ([0, 1] : List ℚ) [1, 2] 1 = 2 := by
  decide!

/-- C5: on `x = [0,1,2,3]`, `y = [1,2,9,28]` the Stirling evaluator returns `1` at the
centre node `x[1] = 1`, where `y[1] = 2` and the Lagrange evaluator returns `2`. -/
theorem stirling_misses_centre_node :
    interpolate InterpolationMethod.Stirling ([0, 1, 2, 3] : List ℚ) [1, 2, 9, 28] 1 = 1
      ∧ interpolate InterpolationMethod.Lagrange ([0, 1, 2, 3] : List ℚ) [1, 2, 9, 28] 1 = 2 := by
  decide!

/-- C6: on `x = [0,1,2,3]`, `y = [1,2,9,28]` the Bessel evaluator returns `1/2` at
`x[1] = 1`, where `y[1] = 2` and the Lagrange evaluator returns `2`. -/
theorem bessel_misses_centre_node :
    interpolate InterpolationMethod.Bessel ([0, 1, 2, 3] : List ℚ) [1, 2, 9, 28] 1 = 1 / 2
      ∧ interpolate InterpolationMethod.Lagrange ([0, 1, 2, 3] : List ℚ) [1, 2, 9, 28] 1 = 2 := by
  decide!

/-! ## Row 0 of the difference table -/

/-- A fold whose every step preserves an observation preserves it. -/
theorem foldl_preserves {α σ β : Type} (P : σ → β) (f : σ → α → σ) (l : List α)
    (h : ∀ s a, a ∈ l → P (f s a) = P s) : ∀ s, P (l.foldl f s) = P s := by
  induction l with
  | nil => intro s; rfl
  | cons a l ih =>
    intro s
    rw [List.foldl_cons, ih (fun s b hb => h s b (List.mem_cons_of_mem a hb)),
      h s a (List.mem_cons_self a l)]

theorem setEntry_row_zero {K : Type} [Field K] (defy : List (List K)) (i j : Nat) (e : K)
    (hi : i ≠ 0) : (setEntry defy i j e).getD 0 [] = defy.getD 0 [] := by
  unfold setEntry
  rw [List.getD_eq_getElem?_getD, List.getElem?_set_ne hi, ← List.getD_eq_getElem?_getD]

theorem entry_row_zero {K : Type} [Field K] (defy : List (List K)) (k : Nat) :
    entry defy 0 k = (defy.getD 0 []).getD k 0 := by
  unfold entry
  rw [if_neg (lt_irrefl (0 : Int))]
  rfl

/-- Row 0 of the matrix returned by `difference_table` is `[y[0], 0, ..., 0]`: the
initialisation writes `y[0]` into its first cell and the fill loop writes rows `1 .. n-1`
only. -/
theorem difference_table_row_zero {K : Type} [Field K] (y : List K) (hn : 1 ≤ y.length) :
    (difference_table y).getD 0 [] = y.getD 0 0 :: List.replicate (y.length - 1) 0 := by
  unfold difference_table
  simp only []
  rw [foldl_preserves (fun d : List (List K) => d.getD 0 [])]
  · obtain ⟨n, hn2⟩ : ∃ n, y.length = n + 1 := ⟨y.length - 1, by omega⟩
    rw [hn2, List.range_eq_range', List.range'_succ, List.foldl_cons,
      foldl_preserves (fun d : List (List K) => d.getD 0 [])]
    · simp only [setEntry]
      rw [List.getD_eq_getElem?_getD, List.getElem?_set, if_pos rfl,
        if_pos (by rw [List.length_replicate]; omega)]
      simp [List.replicate_succ]
    · intro s a ha
      rw [List.mem_range'_1] at ha
      exact setEntry_row_zero s a 0 _ (by omega)
  · intro s i hi
    rw [List.mem_range'_1] at hi
    exact foldl_preserves (fun d : List (List K) => d.getD 0 []) _ _
      (fun s2 j _ => setEntry_row_zero s2 i j _ (by omega)) s

theorem entry_difference_table_row_zero {K : Type} [Field K] (y : List K) (hn : 1 ≤ y.length)
    (k : Nat) : entry (difference_table y) 0 k = if k = 0 then y.getD 0 0 else 0 := by
  rw [entry_row_zero, difference_table_row_zero y hn]
  cases k with
  | zero => rfl
  | succ k =>
    rw [if_neg (Nat.succ_ne_zero k)]
    show (List.replicate (y.length - 1) (0 : K)).getD k 0 = 0
    rw [List.getD_eq_getElem?_getD, List.getElem?_replicate]
    split <;> rfl

/-- C15: for every data set of size `n ≥ 1`, row 0 of the matrix returned by
`difference_table` is `[y[0], 0, ..., 0]`, and the NewtonFinite evaluator returns `y[0]` at
every query point `v`, whatever `x` and `y[1..n-1]` are. -/
theorem newton_finite_constant {K : Type} [Field K] (x y : List K)
    (_hlen : x.length = y.length) (hn : 1 ≤ y.length) :
    (difference_table y)[0]? = some (y.getD 0 0 :: List.replicate (y.length - 1) 0)
      ∧ ∀ v : K, interpolate InterpolationMethod.NewtonFinite x y v = y.getD 0 0 := by
  constructor
  · have hlen0 : 0 < (difference_table y).length := by
      by_contra hc
      have hnil : difference_table y = [] := List.length_eq_zero.mp (by omega)
      have := difference_table_row_zero y hn
      rw [hnil] at this
      exact absurd this (by simp)
    have := difference_table_row_zero y hn
    rw [List.getD_eq_getElem _ _ hlen0] at this
    rw [List.getElem?_eq_getElem hlen0, this]
  · intro v
    show newton_finite x y v = y.getD 0 0
    unfold newton_finite
    simp only []
    rw [foldl_preserves (fun st : K × K => st.1)]
    · rw [entry_difference_table_row_zero y hn 0, if_pos rfl]
    · intro s i hi
      rw [List.mem_range'_1] at hi
      show s.1 + s.2 * (v - x.getD (i - 1) 0) * entry (difference_table y) 0 i / factorial i = s.1
      rw [entry_difference_table_row_zero y hn i, if_neg (by omega), mul_zero, zero_div,
        add_zero]

theorem newton_finite_constant_witness :
    (difference_table ([5, 7, 11] : List ℚ))[0]? = some [5, 0, 0]
      ∧ ∀ v : ℚ, interpolate InterpolationMethod.NewtonFinite ([0, 1, 2] : List ℚ) [5, 7, 11] v
          = 5 :=
  newton_finite_constant ([0, 1, 2] : List ℚ) [5, 7, 11] rfl (by decide)


/-! ## The sampling loop -/

/-- Filling the cells `0 .. m-1` of a zero vector of length `n`. -/
theorem foldl_set_range {K : Type} [Field K] (f : Nat → K) (n m : Nat) (hm : m ≤ n) :
    ((List.range m).foldl (fun (l : List K) i => l.set i (f i)) (List.replicate n 0)).length = n
      ∧ ∀ j, ((List.range m).foldl (fun (l : List K) i => l.set i (f i))
          (List.replicate n 0)).getD j 0 = if j < m then f j else 0 := by
  induction m with
  | zero =>
    refine ⟨by simp, fun j => ?_⟩
    rw [if_neg (Nat.not_lt_zero j)]
    show (List.replicate n (0 : K)).getD j 0 = 0
    rw [List.getD_eq_getElem?_getD, List.getElem?_replicate]
    split <;> rfl
  | succ m ih =>
    obtain ⟨hl, hv⟩ := ih (by omega)
    rw [List.range_succ, List.foldl_append, List.foldl_cons, List.foldl_nil]
    refine ⟨by rw [List.length_set, hl], fun j => ?_⟩
    rw [getD_set_eq, hl, hv j]
    by_cases hj : j = m
    · subst hj
      rw [if_pos ⟨rfl, by omega⟩, if_pos (Nat.lt_succ_self j)]
    · rw [if_neg (fun h => hj h.1)]
      by_cases hjm : j < m
      · rw [if_pos hjm, if_pos (by omega)]
      · rw [if_neg hjm, if_neg (by omega)]

/-- A loop that fills two vectors side by side is the pair of the two fills. -/
theorem foldl_set_pair {K : Type} [Field K] (a b : Nat → K) (l : List Nat) :
    ∀ (u w : List K),
      l.foldl (fun (st : List K × List K) (i : Nat) => (st.1.set i (a i), st.2.set i (b i))) (u, w)
        = (l.foldl (fun (s : List K) i => s.set i (a i)) u,
            l.foldl (fun (s : List K) i => s.set i (b i)) w) := by
  induction l with
  | nil => intro u w; rfl
  | cons i l ih =>
    intro u w
    rw [List.foldl_cons, List.foldl_cons, List.foldl_cons]
    exact ih _ _

theorem getElem?_of_getD {K : Type} [Field K] (l : List K) (i : Nat) (e : K)
    (hi : i < l.length) (h : l.getD i 0 = e) : l[i]? = some e := by
  rw [List.getElem?_eq_getElem hi, ← h, List.getD_eq_getElem _ 0 hi]

/-- C11: over exact arithmetic, for every function `g`, every `start < end` and every
`nodes ≥ 2`, `generate_func_values` returns two sequences of length `nodes` with
`x[i] = start + i * (end - start) / (nodes - 1)` and `y[i] = g(x[i])`; in particular
`x[0] = start` and `x[nodes - 1] = end`. -/
theorem generate_func_values_spec {K : Type} [LinearOrderedField K] (g : K → K)
    (start stop : K) (nodes : Nat) (_hlt : start < stop) (hn : 2 ≤ nodes) :
    (generate_func_values g start stop nodes).1.length = nodes
      ∧ (generate_func_values g start stop nodes).2.length = nodes
      ∧ (∀ i, i < nodes →
          (generate_func_values g start stop nodes).1[i]?
              = some (start + (i : K) * (stop - start) / ((nodes : K) - 1))
            ∧ (generate_func_values g start stop nodes).2[i]?
              = some (g (start + (i : K) * (stop - start) / ((nodes : K) - 1))))
      ∧ (generate_func_values g start stop nodes).1[0]? = some start
      ∧ (generate_func_values g start stop nodes).1[nodes - 1]? = some stop := by
  have hcast : ((((nodes : Int) - 1 : Int)) : K) = (nodes : K) - 1 := by push_cast; ring
  have hne : (nodes : K) - 1 ≠ 0 := by
    have h2 : (2 : K) ≤ (nodes : K) := by exact_mod_cast hn
    have : (0 : K) < (nodes : K) - 1 := by linarith
    exact ne_of_gt this
  have hshape : generate_func_values g start stop nodes
      = ((List.range nodes).foldl (fun (s : List K) i =>
            s.set i (start + (stop - start) / ((nodes : K) - 1) * (i : K)))
            (List.replicate nodes 0),
          (List.range nodes).foldl (fun (s : List K) i =>
            s.set i (g (start + (stop - start) / ((nodes : K) - 1) * (i : K))))
            (List.replicate nodes 0)) := by
    unfold generate_func_values
    simp only []
    rw [hcast]
    exact foldl_set_pair _ _ _ _ _
  obtain ⟨hl1, hv1⟩ := foldl_set_range
    (fun i => start + (stop - start) / ((nodes : K) - 1) * (i : K)) nodes nodes (le_refl _)
  obtain ⟨hl2, hv2⟩ := foldl_set_range
    (fun i => g (start + (stop - start) / ((nodes : K) - 1) * (i : K))) nodes nodes (le_refl _)
  have hx : ∀ i, i < nodes → (generate_func_values g start stop nodes).1[i]?
      = some (start + (i : K) * (stop - start) / ((nodes : K) - 1)) := by
    intro i hi
    rw [hshape]
    apply getElem?_of_getD _ _ _ (by rw [hl1]; exact hi)
    rw [hv1 i, if_pos hi]
    ring
  have hy : ∀ i, i < nodes → (generate_func_values g start stop nodes).2[i]?
      = some (g (start + (i : K) * (stop - start) / ((nodes : K) - 1))) := by
    intro i hi
    rw [hshape]
    apply getElem?_of_getD _ _ _ (by rw [hl2]; exact hi)
    rw [hv2 i, if_pos hi]
    congr 1
    ring
  refine ⟨by rw [hshape]; exact hl1, by rw [hshape]; exact hl2, fun i hi => ⟨hx i hi, hy i hi⟩,
    ?_, ?_⟩
  · rw [hx 0 (by omega)]
    simp
  · rw [hx (nodes - 1) (by omega)]
    have hc : ((nodes - 1 : Nat) : K) = (nodes : K) - 1 := by
      rw [Nat.cast_sub (by omega)]; simp
    rw [hc, mul_div_assoc, mul_div_cancel₀ _ hne]
    simp


/-- Sampling the sine on `[0, π]` with five nodes gives the abscissae
`[0, π/4, π/2, 3π/4, π]` and their sines. -/
theorem generate_func_values_spec_witness :
    (0 : ℝ) < Real.pi
      ∧ (generate_func_values Real.sin 0 Real.pi 5).1
          = [0, Real.pi / 4, Real.pi / 2, 3 * Real.pi / 4, Real.pi]
      ∧ (generate_func_values Real.sin 0 Real.pi 5).2
          = [Real.sin 0, Real.sin (Real.pi / 4), Real.sin (Real.pi / 2),
              Real.sin (3 * Real.pi / 4), Real.sin Real.pi] := by
  obtain ⟨hl1, hl2, hv, _, _⟩ :=
    generate_func_values_spec Real.sin 0 Real.pi 5 Real.pi_pos (by decide)
  refine ⟨Real.pi_pos, ?_, ?_⟩
  · apply List.ext_getElem?
    intro i
    by_cases hi : i < 5
    · rw [(hv i hi).1]
      interval_cases i <;> simp <;> ring
    · rw [List.getElem?_eq_none (by rw [hl1]; omega), List.getElem?_eq_none (by simp; omega)]
  · apply List.ext_getElem?
    intro i
    by_cases hi : i < 5
    · rw [(hv i hi).2]
      interval_cases i <;>
        (simp only [List.getElem?_cons_succ, List.getElem?_cons_zero]
         congr 2
         push_cast
         ring)
    · rw [List.getElem?_eq_none (by rw [hl2]; omega), List.getElem?_eq_none (by simp; omega)]


/-! ## The running term of the Stirling loop -/

/-- The evaluator `stirling` is the first component of the loop state after the orders
`3 .. n-1`. -/
theorem stirling_eq_loop {K : Type} [Field K] (x y : List K) (v : K) :
    stirling x y v
      = (stirling_loop (difference_table y) (((x.length - 1) / 2 : Nat) : Int)
          ((v - x.getD ((x.length - 1) / 2) 0)
            / (x.getD ((x.length - 1) / 2 + 1) 0 - x.getD ((x.length - 1) / 2) 0))
          (entry (difference_table y) (((x.length - 1) / 2 : Nat) : Int) 0
            + (v - x.getD ((x.length - 1) / 2) 0)
                / (x.getD ((x.length - 1) / 2 + 1) 0 - x.getD ((x.length - 1) / 2) 0)
              * (entry (difference_table y) ((((x.length - 1) / 2 : Nat) : Int) - 1) 1
                  + entry (difference_table y) (((x.length - 1) / 2 : Nat) : Int) 1) / 2
            + ((v - x.getD ((x.length - 1) / 2) 0)
                / (x.getD ((x.length - 1) / 2 + 1) 0 - x.getD ((x.length - 1) / 2) 0)) ^ 2 / 2
              * entry (difference_table y) ((((x.length - 1) / 2 : Nat) : Int) - 1) 2)
          (x.length - 1 - 3)).1 := rfl

/-- One more iteration of the loop, for the order `m + 3`, acts on the running term. -/
theorem stirling_loop_succ {K : Type} [Field K] (defy : List (List K)) (c : Int)
    (t result0 : K) (m : Nat) :
    (stirling_loop defy c t result0 (m + 1)).2
      = if (m + 3) % 2 = 0 then
          (stirling_loop defy c t result0 m).2 * (t / ((m + 3 : Nat) : K))
        else
          (stirling_loop defy c t result0 m).2
            * ((t ^ 2 - (((m + 3) / 2 : Nat) : K) ^ 2) / (((m + 3 : Nat) : K) * t)) := by
  unfold stirling_loop
  rw [List.range'_concat, List.foldl_append, List.foldl_cons, List.foldl_nil]
  have e : 3 + 1 * m = m + 3 := by omega
  rw [e]
  by_cases h : (m + 3) % 2 = 0
  · rw [if_pos h, if_pos h]
  · rw [if_neg h, if_neg h]

theorem stirlingCoefficient_even {K : Type} [Field K] (t : K) (j : Nat) :
    stirlingCoefficient t (2 * j + 2)
      = t ^ 2 * (∏ i in Finset.Icc 1 j, (t ^ 2 - (i : K) ^ 2))
          / (Nat.factorial (2 * j + 2) : K) := by
  unfold stirlingCoefficient
  have h1 : ¬ (2 * j + 2) % 2 = 1 := by omega
  have h2 : (2 * j + 2) / 2 - 1 = j := by omega
  rw [if_neg h1, h2]

theorem stirlingCoefficient_odd {K : Type} [Field K] (t : K) (j : Nat) :
    stirlingCoefficient t (2 * j + 3)
      = t * (∏ i in Finset.Icc 1 (j + 1), (t ^ 2 - (i : K) ^ 2))
          / (Nat.factorial (2 * j + 3) : K) := by
  unfold stirlingCoefficient
  have h1 : (2 * j + 3) % 2 = 1 := by omega
  have h2 : (2 * j + 3 - 1) / 2 = j + 1 := by omega
  rw [if_pos h1, h2]

theorem stirling_alg_odd {K : Type} [Field K] (t P F a b : K) (ht : t ≠ 0) (hF : F ≠ 0)
    (ha : a ≠ 0) :
    t ^ 2 * P / F * ((t ^ 2 - b ^ 2) / (a * t)) = t * (P * (t ^ 2 - b ^ 2)) / (a * F) := by
  field_simp
  ring

theorem stirling_alg_even {K : Type} [Field K] (t P F a : K) (hF : F ≠ 0) (ha : a ≠ 0) :
    t * P / F * (t / a) = t ^ 2 * P / (a * F) := by
  field_simp
  ring

/-- The running term after an even and after an odd number of iterations. -/
theorem stirling_loop_term {K : Type} [Field K] [CharZero K] (defy : List (List K)) (c : Int)
    (t result0 : K) (ht : t ≠ 0) (j : Nat) :
    (stirling_loop defy c t result0 (2 * j)).2 = stirlingCoefficient t (2 * j + 2)
      ∧ (stirling_loop defy c t result0 (2 * j + 1)).2 = stirlingCoefficient t (2 * j + 3) := by
  have hodd : ∀ j, (stirling_loop defy c t result0 (2 * j)).2 = stirlingCoefficient t (2 * j + 2)
      → (stirling_loop defy c t result0 (2 * j + 1)).2 = stirlingCoefficient t (2 * j + 3) := by
    intro j h
    have hpar : ¬ (2 * j + 3) % 2 = 0 := by omega
    have hhalf : (2 * j + 3) / 2 = j + 1 := by omega
    have hf : (Nat.factorial (2 * j + 2) : K) ≠ 0 :=
      Nat.cast_ne_zero.mpr (Nat.factorial_ne_zero _)
    have hk : ((2 * j + 3 : Nat) : K) ≠ 0 := Nat.cast_ne_zero.mpr (by omega)
    have hfac : Nat.factorial (2 * j + 3) = (2 * j + 3) * Nat.factorial (2 * j + 2) :=
      Nat.factorial_succ (2 * j + 2)
    rw [stirling_loop_succ, if_neg hpar, h, hhalf, stirlingCoefficient_even,
      stirlingCoefficient_odd, Finset.prod_Icc_succ_top (by omega), hfac, Nat.cast_mul]
    exact stirling_alg_odd t _ _ _ _ ht hf hk
  induction j with
  | zero =>
    have h0 : (stirling_loop defy c t result0 (2 * 0)).2 = stirlingCoefficient t (2 * 0 + 2) := by
      rw [stirlingCoefficient_even]
      show t ^ 2 / 2 = _
      simp [Nat.factorial]
    exact ⟨h0, hodd 0 h0⟩
  | succ j ih =>
    have heven : (stirling_loop defy c t result0 (2 * (j + 1))).2
        = stirlingCoefficient t (2 * (j + 1) + 2) := by
      have hpar : (2 * j + 1 + 3) % 2 = 0 := by omega
      have hf : (Nat.factorial (2 * j + 3) : K) ≠ 0 :=
        Nat.cast_ne_zero.mpr (Nat.factorial_ne_zero _)
      have hk : ((2 * j + 1 + 3 : Nat) : K) ≠ 0 := Nat.cast_ne_zero.mpr (by omega)
      have hfac : Nat.factorial (2 * (j + 1) + 2)
          = (2 * j + 1 + 3) * Nat.factorial (2 * j + 3) := Nat.factorial_succ (2 * j + 3)
      have hstep : (stirling_loop defy c t result0 (2 * (j + 1))).2
          = (stirling_loop defy c t result0 (2 * j + 1)).2 * (t / ((2 * j + 1 + 3 : Nat) : K)) := by
        have := stirling_loop_succ defy c t result0 (2 * j + 1)
        rw [if_pos hpar] at this
        exact this
      rw [hstep, ih.2, stirlingCoefficient_even, stirlingCoefficient_odd, hfac, Nat.cast_mul]
      exact stirling_alg_even t _ _ _ hf hk
    exact ⟨heven, hodd (j + 1) heven⟩

/-- C20: over exact arithmetic, for every `t ≠ 0` and every order `k ≥ 3`, the running value
`term` of the Stirling loop after the iteration for `k` (the loop started from
`term = t^2 / 2` at order 2) is the Stirling coefficient
`t * ∏_(i=1..(k-1)/2) (t^2 - i^2) / k!` for odd `k` and
`t^2 * ∏_(i=1..k/2-1) (t^2 - i^2) / k!` for even `k`. -/
theorem stirling_term_eq_coefficient {K : Type} [Field K] [CharZero K]
    (defy : List (List K)) (c : Int) (t result0 : K) (ht : t ≠ 0) (k : Nat) (hk : 3 ≤ k) :
    (stirling_loop defy c t result0 (k - 2)).2
      = if k % 2 = 1 then
          t * (∏ i in Finset.Icc 1 ((k - 1) / 2), (t ^ 2 - (i : K) ^ 2)) / (Nat.factorial k : K)
        else
          t ^ 2 * (∏ i in Finset.Icc 1 (k / 2 - 1), (t ^ 2 - (i : K) ^ 2))
            / (Nat.factorial k : K) := by
  show _ = stirlingCoefficient t k
  rcases Nat.even_or_odd k with ⟨j, hj⟩ | ⟨j, hj⟩
  · have e : k - 2 = 2 * (j - 1) := by omega
    have e2 : k = 2 * (j - 1) + 2 := by omega
    rw [e, (stirling_loop_term defy c t result0 ht (j - 1)).1, ← e2]
  · have e : k - 2 = 2 * (j - 1) + 1 := by omega
    have e2 : k = 2 * (j - 1) + 3 := by omega
    rw [e, (stirling_loop_term defy c t result0 ht (j - 1)).2, ← e2]

theorem stirling_term_eq_coefficient_witness :
    (3 : ℚ) ≠ 0 ∧ (stirling_loop ([] : List (List ℚ)) 0 3 0 (5 - 2)).2 = 1 := by
  refine ⟨by norm_num, ?_⟩
  rw [stirling_term_eq_coefficient ([] : List (List ℚ)) 0 3 0 (by norm_num) 5 (by decide)]
  decide!


/-! ## Cells read by the finite-difference evaluators -/

theorem mem_newton_finite_reads (size : Nat) (p : Int × Nat) :
    p ∈ newton_finite_reads size ↔ p.1 = 0 ∧ (p.2 = 0 ∨ (1 ≤ p.2 ∧ p.2 < 1 + (size - 1))) := by
  obtain ⟨i, k⟩ := p
  simp only [newton_finite_reads, List.mem_cons, List.mem_map, List.mem_range'_1, Prod.mk.injEq]
  constructor
  · rintro (⟨rfl, rfl⟩ | ⟨a, ha, rfl, rfl⟩)
    · exact ⟨rfl, Or.inl rfl⟩
    · exact ⟨rfl, Or.inr ha⟩
  · rintro ⟨rfl, h | h⟩
    · exact Or.inl ⟨rfl, h⟩
    · exact Or.inr ⟨k, h, rfl, rfl⟩

/-- A property of every cell read by `stirling()` follows from the property of the four
cells of the initial expression and of the cells of each order of the loop. -/
theorem stirling_reads_forall (size : Nat) (P : Int × Nat → Prop)
    (h0 : P ((((size - 1) / 2 : Nat) : Int), 0))
    (h1 : P ((((size - 1) / 2 : Nat) : Int) - 1, 1))
    (h2 : P ((((size - 1) / 2 : Nat) : Int), 1))
    (h3 : P ((((size - 1) / 2 : Nat) : Int) - 1, 2))
    (heven : ∀ k, 3 ≤ k → k < 3 + (size - 1 - 3) → k % 2 = 0 →
      P ((((size - 1) / 2 : Nat) : Int) - ((k / 2 : Nat) : Int), k))
    (hodd : ∀ k, 3 ≤ k → k < 3 + (size - 1 - 3) → k % 2 ≠ 0 →
      P ((((size - 1) / 2 : Nat) : Int) - ((k / 2 : Nat) : Int) - 1, k)
        ∧ P ((((size - 1) / 2 : Nat) : Int) - ((k / 2 : Nat) : Int), k)) :
    ∀ p ∈ stirling_reads size, P p := by
  intro p hp
  simp only [stirling_reads, List.mem_append, List.mem_cons, List.mem_singleton,
    List.not_mem_nil, or_false, List.mem_flatMap, List.mem_range'_1] at hp
  rcases hp with (rfl | rfl | rfl | rfl) | ⟨k, hk, hp⟩
  · exact h0
  · exact h1
  · exact h2
  · exact h3
  · by_cases hpar : k % 2 = 0
    · rw [if_pos hpar, List.mem_singleton] at hp
      rw [hp]
      exact heven k hk.1 hk.2 hpar
    · rw [if_neg hpar] at hp
      simp only [List.mem_cons, List.mem_singleton, List.not_mem_nil, or_false] at hp
      rcases hp with rfl | rfl
      · exact (hodd k hk.1 hk.2 hpar).1
      · exact (hodd k hk.1 hk.2 hpar).2

/-- A property of every cell read by `bessel()` follows from the property of the five cells
of the initial expression and of the cells of each order of the loop. -/
theorem bessel_reads_forall (size : Nat) (P : Int × Nat → Prop)
    (h0 : P ((((size - 1) / 2 : Nat) : Int), 0))
    (h1 : P ((((size - 1) / 2 : Nat) : Int) + 1, 0))
    (h2 : P ((((size - 1) / 2 : Nat) : Int), 1))
    (h3 : P ((((size - 1) / 2 : Nat) : Int) - 1, 2))
    (h4 : P ((((size - 1) / 2 : Nat) : Int), 2))
    (heven : ∀ k, 3 ≤ k → k < 3 + (size - 1 - 2) → k % 2 = 0 →
      P ((((size - 1) / 2 : Nat) : Int) - 1 - (((k / 2 : Nat) : Int) - 1), k)
        ∧ P ((((size - 1) / 2 : Nat) : Int) - (((k / 2 : Nat) : Int) - 1), k))
    (hodd : ∀ k, 3 ≤ k → k < 3 + (size - 1 - 2) → k % 2 ≠ 0 →
      P ((((size - 1) / 2 : Nat) : Int) - ((k / 2 : Nat) : Int), k)) :
    ∀ p ∈ bessel_reads size, P p := by
  intro p hp
  simp only [bessel_reads, List.mem_append, List.mem_cons, List.mem_singleton,
    List.not_mem_nil, or_false, List.mem_flatMap, List.mem_range'_1] at hp
  rcases hp with (rfl | rfl | rfl | rfl | rfl) | ⟨k, hk, hp⟩
  · exact h0
  · exact h1
  · exact h2
  · exact h3
  · exact h4
  · by_cases hpar : k % 2 = 0
    · rw [if_pos hpar] at hp
      simp only [List.mem_cons, List.mem_singleton, List.not_mem_nil, or_false] at hp
      rcases hp with rfl | rfl
      · exact (heven k hk.1 hk.2 hpar).1
      · exact (heven k hk.1 hk.2 hpar).2
    · rw [if_neg hpar, List.mem_singleton] at hp
      rw [hp]
      exact hodd k hk.1 hk.2 hpar

/-- On an odd number `size ≥ 5` of nodes `bessel()` reads the cell `defy[1][size-1]`. -/
theorem bessel_reads_last_order (size : Nat) (hsize : 4 ≤ size) (hodd : size % 2 = 1) :
    ((1 : Int), size - 1) ∈ bessel_reads size := by
  simp only [bessel_reads, List.mem_append, List.mem_flatMap, List.mem_range'_1]
  refine Or.inr ⟨size - 1, by omega, ?_⟩
  rw [if_pos (by omega)]
  simp only [List.mem_cons, Prod.mk.injEq, and_true, List.mem_singleton, List.not_mem_nil,
    or_false]
  omega


/-! ## The evaluators depend on the table through the listed cells only -/

theorem newton_finite_eq_on {K : Type} [Field K] (x y : List K) (v : K) :
    newton_finite x y v = newton_finite_on (entry (difference_table y)) x v := rfl

theorem stirling_eq_on {K : Type} [Field K] (x y : List K) (v : K) :
    stirling x y v = stirling_on (entry (difference_table y)) x v := rfl

theorem bessel_eq_on {K : Type} [Field K] (x y : List K) (v : K) :
    bessel x y v = bessel_on (entry (difference_table y)) x v := rfl

theorem mem_stirling_reads_iff (size : Nat) (p : Int × Nat) :
    p ∈ stirling_reads size ↔
      (p = ((((size - 1) / 2 : Nat) : Int), 0) ∨ p = ((((size - 1) / 2 : Nat) : Int) - 1, 1)
        ∨ p = ((((size - 1) / 2 : Nat) : Int), 1) ∨ p = ((((size - 1) / 2 : Nat) : Int) - 1, 2))
      ∨ ∃ k, (3 ≤ k ∧ k < 3 + (size - 1 - 3)) ∧
          p ∈ (if k % 2 = 0 then [((((size - 1) / 2 : Nat) : Int) - ((k / 2 : Nat) : Int), k)]
            else [((((size - 1) / 2 : Nat) : Int) - ((k / 2 : Nat) : Int) - 1, k),
              ((((size - 1) / 2 : Nat) : Int) - ((k / 2 : Nat) : Int), k)]) := by
  simp only [stirling_reads, List.mem_append, List.mem_cons, List.mem_singleton,
    List.not_mem_nil, or_false, List.mem_flatMap, List.mem_range'_1]

theorem mem_bessel_reads_iff (size : Nat) (p : Int × Nat) :
    p ∈ bessel_reads size ↔
      (p = ((((size - 1) / 2 : Nat) : Int), 0) ∨ p = ((((size - 1) / 2 : Nat) : Int) + 1, 0)
        ∨ p = ((((size - 1) / 2 : Nat) : Int), 1) ∨ p = ((((size - 1) / 2 : Nat) : Int) - 1, 2)
        ∨ p = ((((size - 1) / 2 : Nat) : Int), 2))
      ∨ ∃ k, (3 ≤ k ∧ k < 3 + (size - 1 - 2)) ∧
          p ∈ (if k % 2 = 0 then
              [((((size - 1) / 2 : Nat) : Int) - 1 - (((k / 2 : Nat) : Int) - 1), k),
                ((((size - 1) / 2 : Nat) : Int) - (((k / 2 : Nat) : Int) - 1), k)]
            else [((((size - 1) / 2 : Nat) : Int) - ((k / 2 : Nat) : Int), k)]) := by
  simp only [bessel_reads, List.mem_append, List.mem_cons, List.mem_singleton,
    List.not_mem_nil, or_false, List.mem_flatMap, List.mem_range'_1]

/-- Two cell readers that agree on `newton_finite_reads` give the same NewtonFinite value. -/
theorem newton_finite_on_congr {K : Type} [Field K] (rd rd2 : Int → Nat → K) (x : List K)
    (v : K) (h : ∀ p ∈ newton_finite_reads x.length, rd p.1 p.2 = rd2 p.1 p.2) :
    newton_finite_on rd x v = newton_finite_on rd2 x v := by
  unfold newton_finite_on
  simp only []
  have h0 : rd 0 0 = rd2 0 0 :=
    h (0, 0) ((mem_newton_finite_reads _ _).mpr ⟨rfl, Or.inl rfl⟩)
  rw [h0]
  congr 1
  apply List.foldl_ext
  intro st i hi
  rw [List.mem_range'_1] at hi
  have hi2 : rd 0 i = rd2 0 i :=
    h (0, i) ((mem_newton_finite_reads _ _).mpr ⟨rfl, Or.inr hi⟩)
  rw [hi2]

/-- Two cell readers that agree on `stirling_reads` give the same Stirling value. -/
theorem stirling_on_congr {K : Type} [Field K] (rd rd2 : Int → Nat → K) (x : List K)
    (v : K) (h : ∀ p ∈ stirling_reads x.length, rd p.1 p.2 = rd2 p.1 p.2) :
    stirling_on rd x v = stirling_on rd2 x v := by
  have hmem := mem_stirling_reads_iff x.length
  unfold stirling_on
  simp only []
  rw [h (_, 0) ((hmem _).mpr (Or.inl (Or.inl rfl))),
    h (_, 1) ((hmem _).mpr (Or.inl (Or.inr (Or.inl rfl)))),
    h (_, 1) ((hmem _).mpr (Or.inl (Or.inr (Or.inr (Or.inl rfl))))),
    h (_, 2) ((hmem _).mpr (Or.inl (Or.inr (Or.inr (Or.inr rfl)))))]
  congr 1
  apply List.foldl_ext
  intro st k hk
  rw [List.mem_range'_1] at hk
  by_cases hpar : k % 2 = 0
  · rw [if_pos hpar, if_pos hpar,
      h (_, k) ((hmem _).mpr (Or.inr ⟨k, hk, by rw [if_pos hpar]; exact List.mem_singleton.mpr rfl⟩))]
  · rw [if_neg hpar, if_neg hpar,
      h (_, k) ((hmem _).mpr (Or.inr ⟨k, hk, by rw [if_neg hpar]; exact List.mem_cons_self _ _⟩)),
      h (_, k) ((hmem _).mpr (Or.inr ⟨k, hk, by
        rw [if_neg hpar]; exact List.mem_cons_of_mem _ (List.mem_singleton.mpr rfl)⟩))]

/-- Two cell readers that agree on `bessel_reads` give the same Bessel value. -/
theorem bessel_on_congr {K : Type} [Field K] (rd rd2 : Int → Nat → K) (x : List K)
    (v : K) (h : ∀ p ∈ bessel_reads x.length, rd p.1 p.2 = rd2 p.1 p.2) :
    bessel_on rd x v = bessel_on rd2 x v := by
  have hmem := mem_bessel_reads_iff x.length
  unfold bessel_on
  simp only []
  rw [h (_, 0) ((hmem _).mpr (Or.inl (Or.inl rfl))),
    h (_ + 1, 0) ((hmem _).mpr (Or.inl (Or.inr (Or.inl rfl)))),
    h (_, 1) ((hmem _).mpr (Or.inl (Or.inr (Or.inr (Or.inl rfl))))),
    h (_ - 1, 2) ((hmem _).mpr (Or.inl (Or.inr (Or.inr (Or.inr (Or.inl rfl)))))),
    h (_, 2) ((hmem _).mpr (Or.inl (Or.inr (Or.inr (Or.inr (Or.inr rfl))))))]
  congr 1
  apply List.foldl_ext
  intro st k hk
  rw [List.mem_range'_1] at hk
  by_cases hpar : k % 2 = 0
  · rw [if_pos hpar, if_pos hpar,
      h (_, k) ((hmem _).mpr (Or.inr ⟨k, hk, by rw [if_pos hpar]; exact List.mem_cons_self _ _⟩)),
      h (_, k) ((hmem _).mpr (Or.inr ⟨k, hk, by
        rw [if_pos hpar]; exact List.mem_cons_of_mem _ (List.mem_singleton.mpr rfl)⟩))]
  · rw [if_neg hpar, if_neg hpar,
      h (_, k) ((hmem _).mpr (Or.inr ⟨k, hk, by rw [if_neg hpar]; exact List.mem_singleton.mpr rfl⟩))]

/-- C16, as stated, fails: on 5 nodes the Bessel evaluator reads `defy[1][4]` (second cell of
the even order `k = 4`), and `1 + 4 = 5` is not below `5`; the value it returns at `v = 0` on
`x = [0,1,2,3,4]` changes with that cell alone. -/
theorem bessel_reads_outside_triangle :
    ((1 : Int), 4) ∈ bessel_reads 5 ∧ ¬ ((1 : Int) + ((4 : Nat) : Int) < ((5 : Nat) : Int))
      ∧ bessel_on (fun _ _ => (0 : ℚ)) [0, 1, 2, 3, 4] 0
          ≠ bessel_on (fun i k => if i = 1 ∧ k = 4 then (1 : ℚ) else 0) [0, 1, 2, 3, 4] 0 := by
  refine ⟨by decide, by decide, by decide!⟩

/-- C16, amended: for `n ≥ 4` nodes every cell `defy[i][k]` read by the NewtonFinite and
Stirling evaluators satisfies `i + k < n`; every cell read by the Bessel evaluator satisfies
`i + k < n` when `n` is even, and when `n` is odd the only cell it reads outside the triangle
is `defy[1][n-1]` (where `i + k = n`), which it does read. -/
theorem reads_inside_triangle (size : Nat) (hsize : 4 ≤ size) :
    (∀ p ∈ newton_finite_reads size, 0 ≤ p.1 ∧ p.1 + (p.2 : Int) < (size : Int))
      ∧ (∀ p ∈ stirling_reads size, 0 ≤ p.1 ∧ p.1 + (p.2 : Int) < (size : Int))
      ∧ (∀ p ∈ bessel_reads size,
          0 ≤ p.1 ∧ (p.1 + (p.2 : Int) < (size : Int)
            ∨ (size % 2 = 1 ∧ p = ((1 : Int), size - 1))))
      ∧ (size % 2 = 1 → ((1 : Int), size - 1) ∈ bessel_reads size) := by
  refine ⟨?_, ?_, ?_, bessel_reads_last_order size hsize⟩
  · intro p hp
    rw [mem_newton_finite_reads] at hp
    omega
  · apply stirling_reads_forall size
      (fun p => 0 ≤ p.1 ∧ p.1 + (p.2 : Int) < (size : Int))
    all_goals intros
    all_goals simp only []
    all_goals omega
  · apply bessel_reads_forall size
      (fun p => 0 ≤ p.1 ∧ (p.1 + (p.2 : Int) < (size : Int)
        ∨ (size % 2 = 1 ∧ p = ((1 : Int), size - 1))))
    all_goals intros
    all_goals simp only [Prod.mk.injEq]
    all_goals omega

theorem reads_inside_triangle_witness :
    (∀ p ∈ stirling_reads 6, 0 ≤ p.1 ∧ p.1 + (p.2 : Int) < ((6 : Nat) : Int))
      ∧ (∀ p ∈ bessel_reads 5,
          0 ≤ p.1 ∧ (p.1 + (p.2 : Int) < ((5 : Nat) : Int)
            ∨ (5 % 2 = 1 ∧ p = ((1 : Int), 5 - 1))))
      ∧ ((1 : Int), 5 - 1) ∈ bessel_reads 5 :=
  ⟨(reads_inside_triangle 6 (by decide)).2.1, (reads_inside_triangle 5 (by decide)).2.2.1,
    (reads_inside_triangle 5 (by decide)).2.2.2 rfl⟩

/-- C19: for `size ≥ 3` every index used by the Stirling and Bessel evaluators is in bounds:
each read `defy[i][k]` has `0 ≤ i < size` and `k < size`, and `x[center + 1]` has
`center + 1 < size`; for sizes 1 and 2 the Stirling read `defy[center - 1][1]` has row
index `-1`. -/
theorem stirling_bessel_indices_in_bounds :
    (∀ size : Nat, 3 ≤ size →
        (∀ p ∈ stirling_reads size, 0 ≤ p.1 ∧ p.1 < (size : Int) ∧ p.2 < size)
          ∧ (∀ p ∈ bessel_reads size, 0 ≤ p.1 ∧ p.1 < (size : Int) ∧ p.2 < size)
          ∧ (size - 1) / 2 + 1 < size)
      ∧ ((-1 : Int), 1) ∈ stirling_reads 1
      ∧ ((-1 : Int), 1) ∈ stirling_reads 2 := by
  refine ⟨fun size hsize => ⟨?_, ?_, by omega⟩, by decide, by decide⟩
  · apply stirling_reads_forall size (fun p => 0 ≤ p.1 ∧ p.1 < (size : Int) ∧ p.2 < size)
    all_goals intros
    all_goals simp only []
    all_goals omega
  · apply bessel_reads_forall size (fun p => 0 ≤ p.1 ∧ p.1 < (size : Int) ∧ p.2 < size)
    all_goals intros
    all_goals simp only []
    all_goals omega

theorem stirling_bessel_indices_in_bounds_witness :
    (∀ p ∈ stirling_reads 3, 0 ≤ p.1 ∧ p.1 < ((3 : Nat) : Int) ∧ p.2 < 3)
      ∧ (∀ p ∈ bessel_reads 3, 0 ≤ p.1 ∧ p.1 < ((3 : Nat) : Int) ∧ p.2 < 3)
      ∧ (3 - 1) / 2 + 1 < 3 :=
  stirling_bessel_indices_in_bounds.1 3 (by decide)

/-! ## Loops whose steps fail on a zero divisor -/

theorem checkedDiv_zero {K : Type} [Field K] [DecidableEq K] (a b : K) (hb : b = 0) :
    checkedDiv a b = none := by
  unfold checkedDiv
  rw [if_pos hb]

theorem checkedDiv_ne_zero {K : Type} [Field K] [DecidableEq K] (a b : K) (hb : b ≠ 0) :
    checkedDiv a b = some (a / b) := by
  unfold checkedDiv
  rw [if_neg hb]

/-- A checked loop whose step fails exactly on the `bad` counters, whatever the state, fails
when a `bad` counter is in range and otherwise returns the result of the unchecked loop. -/
theorem foldlM_guard {α σ : Type} (bad : α → Prop) (f : σ → α → Option σ) (g : σ → α → σ)
    (hbad : ∀ s a, bad a → f s a = none) (hgood : ∀ s a, ¬ bad a → f s a = some (g s a))
    (l : List α) :
    ∀ s : σ, ((∃ a ∈ l, bad a) → l.foldlM f s = none)
      ∧ ((∀ a ∈ l, ¬ bad a) → l.foldlM f s = some (l.foldl g s)) := by
  induction l with
  | nil =>
    intro s
    refine ⟨?_, fun _ => rfl⟩
    rintro ⟨a, ha, _⟩
    exact absurd ha (List.not_mem_nil a)
  | cons b l ih =>
    intro s
    rw [List.foldlM_cons, List.foldl_cons]
    by_cases hb : bad b
    · rw [hbad s b hb]
      refine ⟨fun _ => rfl, fun h => absurd hb (h b (List.mem_cons_self b l))⟩
    · rw [hgood s b hb]
      show (((∃ a ∈ b :: l, bad a) → l.foldlM f (g s b) = none)
        ∧ ((∀ a ∈ b :: l, ¬ bad a) → l.foldlM f (g s b) = some (l.foldl g (g s b))))
      refine ⟨?_, fun h => (ih (g s b)).2 (fun a ha => h a (List.mem_cons_of_mem b ha))⟩
      rintro ⟨a, ha, hbada⟩
      rcases List.mem_cons.mp ha with rfl | ha2
      · exact absurd hbada hb
      · exact (ih (g s b)).1 ⟨a, ha2, hbada⟩

/-! ## Zero divisors of `differences` and of the Lagrange evaluator -/

/-- The checked `differences` fails exactly when one of its divisors `x[j] - x[j-i]`
vanishes, and otherwise returns the vector of the unchecked method. -/
theorem differencesE_spec {K : Type} [Field K] [DecidableEq K] (x y : List K) :
    (differencesE x y = none ↔
        ∃ i ∈ List.range' 1 (y.length - 1), ∃ j ∈ (List.range' i (y.length - i)).reverse,
          x.getD j 0 - x.getD (j - i) 0 = 0)
      ∧ (differencesE x y ≠ none → differencesE x y = some (differences x y)) := by
  have hinner := fun (i : Nat) => foldlM_guard
    (fun j => x.getD j 0 - x.getD (j - i) 0 = 0)
    (fun (diff : List K) j => do
      let q ← checkedDiv (diff.getD j 0 - diff.getD (j - 1) 0) (x.getD j 0 - x.getD (j - i) 0)
      pure (diff.set j q))
    (fun (diff : List K) j =>
      diff.set j ((diff.getD j 0 - diff.getD (j - 1) 0) / (x.getD j 0 - x.getD (j - i) 0)))
    (fun s a ha => by beta_reduce at ha ⊢; rw [checkedDiv_zero _ _ ha]; rfl)
    (fun s a ha => by beta_reduce at ha ⊢; rw [checkedDiv_ne_zero _ _ ha]; rfl)
    ((List.range' i (y.length - i)).reverse)
  have houter := foldlM_guard
    (fun i => ∃ j ∈ (List.range' i (y.length - i)).reverse, x.getD j 0 - x.getD (j - i) 0 = 0)
    (fun (diff : List K) i =>
      ((List.range' i (y.length - i)).reverse).foldlM
        (fun (diff : List K) j => do
          let q ← checkedDiv (diff.getD j 0 - diff.getD (j - 1) 0)
            (x.getD j 0 - x.getD (j - i) 0)
          pure (diff.set j q))
        diff)
    (fun (diff : List K) i =>
      ((List.range' i (y.length - i)).reverse).foldl
        (fun diff j =>
          diff.set j ((diff.getD j 0 - diff.getD (j - 1) 0) / (x.getD j 0 - x.getD (j - i) 0)))
        diff)
    (fun s i hi => (hinner i s).1 hi)
    (fun s i hi => (hinner i s).2 (fun j hj hb => hi ⟨j, hj, hb⟩))
    (List.range' 1 (y.length - 1)) y
  constructor
  · constructor
    · intro h
      by_contra hc
      have := houter.2 (fun a ha hb => hc ⟨a, ha, hb⟩)
      unfold differencesE at h
      rw [h] at this
      exact absurd this (by simp)
    · exact houter.1
  · intro h
    by_cases hc : ∃ i ∈ List.range' 1 (y.length - 1),
        ∃ j ∈ (List.range' i (y.length - i)).reverse, x.getD j 0 - x.getD (j - i) 0 = 0
    · exact absurd (houter.1 hc) h
    · exact houter.2 (fun a ha hb => hc ⟨a, ha, hb⟩)

/-- The checked Lagrange evaluator fails exactly when one of its divisors `x[i] - x[j]`,
`i ≠ j`, vanishes, and otherwise returns the value of the unchecked evaluator. -/
theorem lagrangeE_spec {K : Type} [Field K] [DecidableEq K] (x y : List K) (v : K) :
    (lagrangeE x y v = none ↔
        ∃ i ∈ List.range y.length, ∃ j ∈ List.range y.length,
          i ≠ j ∧ x.getD i 0 - x.getD j 0 = 0)
      ∧ (lagrangeE x y v ≠ none → lagrangeE x y v = some (lagrange x y v)) := by
  have hinner := fun (i : Nat) => foldlM_guard
    (fun j => i ≠ j ∧ x.getD i 0 - x.getD j 0 = 0)
    (fun (prod : K) j =>
      if i ≠ j then do
        let q ← checkedDiv (v - x.getD j 0) (x.getD i 0 - x.getD j 0)
        pure (prod * q)
      else pure prod)
    (fun (prod : K) j =>
      if i ≠ j then prod * ((v - x.getD j 0) / (x.getD i 0 - x.getD j 0)) else prod)
    (fun s a ha => by beta_reduce at ha ⊢; rw [if_pos ha.1, checkedDiv_zero _ _ ha.2]; rfl)
    (fun s a ha => by
      beta_reduce at ha ⊢
      by_cases hia : i ≠ a
      · have hne : x.getD i 0 - x.getD a 0 ≠ 0 := fun h => ha ⟨hia, h⟩
        rw [if_pos hia, if_pos hia, checkedDiv_ne_zero _ _ hne]; rfl
      · rw [if_neg hia, if_neg hia]; rfl)
    (List.range y.length)
  have houter := foldlM_guard
    (fun i => ∃ j ∈ List.range y.length, i ≠ j ∧ x.getD i 0 - x.getD j 0 = 0)
    (fun (sum : K) i => do
      let prod ← (List.range y.length).foldlM
        (fun prod j =>
          if i ≠ j then do
            let q ← checkedDiv (v - x.getD j 0) (x.getD i 0 - x.getD j 0)
            pure (prod * q)
          else pure prod)
        1
      pure (sum + y.getD i 0 * prod))
    (fun (sum : K) i =>
      sum + y.getD i 0 *
        (List.range y.length).foldl
          (fun prod j =>
            if i ≠ j then prod * ((v - x.getD j 0) / (x.getD i 0 - x.getD j 0)) else prod)
          1)
    (fun s i hi => by beta_reduce at hi ⊢; rw [(hinner i 1).1 hi]; rfl)
    (fun s i hi => by
      beta_reduce at hi ⊢
      rw [(hinner i 1).2 (fun j hj hb => hi ⟨j, hj, hb⟩)]; rfl)
    (List.range y.length) 0
  constructor
  · constructor
    · intro h
      by_contra hc
      have := houter.2 (fun a ha hb => hc ⟨a, ha, hb⟩)
      unfold lagrangeE at h
      rw [h] at this
      exact absurd this (by simp)
    · exact houter.1
  · intro h
    by_cases hc : ∃ i ∈ List.range y.length, ∃ j ∈ List.range y.length,
        i ≠ j ∧ x.getD i 0 - x.getD j 0 = 0
    · exact absurd (houter.1 hc) h
    · exact houter.2 (fun a ha hb => hc ⟨a, ha, hb⟩)


/-- C14: with division failing on a zero divisor, for `n ≥ 2` nodes, `differences` meets a
zero divisor exactly when two abscissae with different indices coincide, and so does the
Lagrange evaluator, at every query point. -/
theorem zero_divisor_iff_repeated_node {K : Type} [Field K] [DecidableEq K] (x y : List K)
    (hlen : x.length = y.length) (_hn : 2 ≤ x.length) :
    (differencesE x y = none ↔
        ∃ a b, a < x.length ∧ b < x.length ∧ a ≠ b ∧ x.getD a 0 = x.getD b 0)
      ∧ ∀ v : K, (lagrangeE x y v = none ↔
          ∃ a b, a < x.length ∧ b < x.length ∧ a ≠ b ∧ x.getD a 0 = x.getD b 0) := by
  constructor
  · rw [(differencesE_spec x y).1]
    constructor
    · rintro ⟨i, hi, j, hj, h⟩
      rw [List.mem_range'_1] at hi
      rw [List.mem_reverse, List.mem_range'_1] at hj
      exact ⟨j, j - i, by omega, by omega, by omega, sub_eq_zero.mp h⟩
    · rintro ⟨a, b, ha, hb, hab, h⟩
      rcases Nat.lt_or_gt_of_ne hab with hlt | hgt
      · refine ⟨b - a, ?_, b, ?_, ?_⟩
        · rw [List.mem_range'_1]; omega
        · rw [List.mem_reverse, List.mem_range'_1]; omega
        · have e : b - (b - a) = a := by omega
          rw [e, h, sub_self]
      · refine ⟨a - b, ?_, a, ?_, ?_⟩
        · rw [List.mem_range'_1]; omega
        · rw [List.mem_reverse, List.mem_range'_1]; omega
        · have e : a - (a - b) = b := by omega
          rw [e, h, sub_self]
  · intro v
    rw [(lagrangeE_spec x y v).1]
    constructor
    · rintro ⟨i, hi, j, hj, hij, h⟩
      rw [List.mem_range] at hi hj
      exact ⟨i, j, by omega, by omega, hij, sub_eq_zero.mp h⟩
    · rintro ⟨a, b, ha, hb, hab, h⟩
      exact ⟨a, List.mem_range.mpr (by omega), b, List.mem_range.mpr (by omega), hab,
        by rw [h, sub_self]⟩

theorem zero_divisor_iff_repeated_node_witness :
    differencesE ([0, 1, 0] : List ℚ) [1, 2, 3] = none
      ∧ lagrangeE ([0, 1, 0] : List ℚ) [1, 2, 3] 5 = none :=
  ⟨(zero_divisor_iff_repeated_node ([0, 1, 0] : List ℚ) [1, 2, 3] rfl (by decide)).1.mpr
      ⟨0, 2, by decide, by decide, by decide, by decide!⟩,
    ((zero_divisor_iff_repeated_node ([0, 1, 0] : List ℚ) [1, 2, 3] rfl (by decide)).2 5).mpr
      ⟨0, 2, by decide, by decide, by decide, by decide!⟩⟩

/-! ## Zero divisors of the Stirling and Bessel evaluators -/

theorem stirlingE_step_bad {K : Type} [Field K] [DecidableEq K] (defy : List (List K))
    (c : Int) (t : K) (st : K × K) (k : Nat)
    (hbad : (k % 2 = 0 ∧ (k : K) = 0) ∨ (k % 2 ≠ 0 ∧ (k : K) * t = 0)) :
    stirlingE_step defy c t st k = none := by
  unfold stirlingE_step
  rcases hbad with ⟨hpar, hk⟩ | ⟨hpar, hk⟩
  · rw [if_pos hpar, checkedDiv_zero _ _ hk]
    rfl
  · rw [if_neg hpar, checkedDiv_zero _ _ hk]
    rfl

theorem stirlingE_step_good {K : Type} [Field K] [DecidableEq K] (defy : List (List K))
    (c : Int) (t : K) (h2 : (2 : K) ≠ 0) (st : K × K) (k : Nat)
    (hgood : ¬ ((k % 2 = 0 ∧ (k : K) = 0) ∨ (k % 2 ≠ 0 ∧ (k : K) * t = 0))) :
    stirlingE_step defy c t st k
      = some
          (if k % 2 = 0 then
            let term := st.2 * (t / (k : K))
            (st.1 + term * entry defy (c - ((k / 2 : Nat) : Int)) k, term)
          else
            let term := st.2 * ((t ^ 2 - ((k / 2 : Nat) : K) ^ 2) / ((k : K) * t))
            (st.1 + term * (entry defy (c - ((k / 2 : Nat) : Int) - 1) k
                            + entry defy (c - ((k / 2 : Nat) : Int)) k) / 2, term)) := by
  unfold stirlingE_step
  by_cases hpar : k % 2 = 0
  · have hk : (k : K) ≠ 0 := fun h => hgood (Or.inl ⟨hpar, h⟩)
    rw [if_pos hpar, if_pos hpar, checkedDiv_ne_zero _ _ hk]
    rfl
  · have hk : (k : K) * t ≠ 0 := fun h => hgood (Or.inr ⟨hpar, h⟩)
    rw [if_neg hpar, if_neg hpar, checkedDiv_ne_zero _ _ hk]
    show (checkedDiv _ 2).bind _ = _
    rw [checkedDiv_ne_zero _ _ h2]
    rfl

/-- The checked Stirling evaluator, when the step `h` and the constant `2` are non-zero,
fails exactly when a divisor of its loop vanishes, and otherwise returns the value of the
unchecked evaluator. -/
theorem stirlingE_spec {K : Type} [Field K] [DecidableEq K] (x y : List K) (v : K)
    (hh : x.getD ((x.length - 1) / 2 + 1) 0 - x.getD ((x.length - 1) / 2) 0 ≠ 0)
    (h2 : (2 : K) ≠ 0) :
    (stirlingE x y v = none ↔
        ∃ k ∈ List.range' 3 (x.length - 1 - 3),
          (k % 2 = 0 ∧ (k : K) = 0)
            ∨ (k % 2 ≠ 0 ∧ (k : K) * ((v - x.getD ((x.length - 1) / 2) 0)
                / (x.getD ((x.length - 1) / 2 + 1) 0 - x.getD ((x.length - 1) / 2) 0)) = 0))
      ∧ (stirlingE x y v ≠ none → stirlingE x y v = some (stirling x y v)) := by
  have hg := fun s => foldlM_guard _ _ _
    (stirlingE_step_bad (difference_table y) (((x.length - 1) / 2 : Nat) : Int)
      ((v - x.getD ((x.length - 1) / 2) 0)
        / (x.getD ((x.length - 1) / 2 + 1) 0 - x.getD ((x.length - 1) / 2) 0)))
    (stirlingE_step_good (difference_table y) (((x.length - 1) / 2 : Nat) : Int)
      ((v - x.getD ((x.length - 1) / 2) 0)
        / (x.getD ((x.length - 1) / 2 + 1) 0 - x.getD ((x.length - 1) / 2) 0)) h2)
    (List.range' 3 (x.length - 1 - 3)) s
  unfold stirlingE
  simp only [checkedDiv_ne_zero _ _ hh, checkedDiv_ne_zero _ _ h2, Option.bind_eq_bind,
    Option.some_bind, Option.pure_def]
  by_cases hc : ∃ k ∈ List.range' 3 (x.length - 1 - 3),
      (k % 2 = 0 ∧ (k : K) = 0)
        ∨ (k % 2 ≠ 0 ∧ (k : K) * ((v - x.getD ((x.length - 1) / 2) 0)
            / (x.getD ((x.length - 1) / 2 + 1) 0 - x.getD ((x.length - 1) / 2) 0)) = 0)
  · rw [(hg _).1 hc]
    exact ⟨⟨fun _ => hc, fun _ => rfl⟩, fun h => absurd rfl h⟩
  · rw [(hg _).2 (fun k hk hb => hc ⟨k, hk, hb⟩)]
    refine ⟨⟨fun h => ?_, fun h => absurd h hc⟩, fun _ => rfl⟩
    exact absurd h (by simp)


/-- C17, amended: over exact arithmetic, with division failing on a zero divisor and
`h = x[center+1] - x[center] ≠ 0`, on at least 5 nodes the Stirling evaluator meets a zero
divisor exactly at `v = x[center]`; on 3 or 4 nodes it meets none, and returns the value of
the unchecked evaluator. -/
theorem stirling_zero_divisor_iff {K : Type} [Field K] [CharZero K] [DecidableEq K]
    (x y : List K) (v : K) (_hlen : x.length = y.length)
    (hh : x.getD ((x.length - 1) / 2 + 1) 0 - x.getD ((x.length - 1) / 2) 0 ≠ 0) :
    (5 ≤ x.length → (stirlingE x y v = none ↔ v = x.getD ((x.length - 1) / 2) 0))
      ∧ ((x.length = 3 ∨ x.length = 4) → stirlingE x y v = some (stirling x y v)) := by
  have h2 : (2 : K) ≠ 0 := two_ne_zero
  obtain ⟨hnone, hsome⟩ := stirlingE_spec x y v hh h2
  constructor
  · intro h5
    rw [hnone]
    constructor
    · rintro ⟨k, hk, hbad⟩
      rw [List.mem_range'_1] at hk
      have hk0 : (k : K) ≠ 0 := Nat.cast_ne_zero.mpr (by omega)
      rcases hbad with ⟨_, h⟩ | ⟨_, h⟩
      · exact absurd h hk0
      · rcases mul_eq_zero.mp h with h | h
        · exact absurd h hk0
        · rcases div_eq_zero_iff.mp h with h | h
          · exact sub_eq_zero.mp h
          · exact absurd h hh
    · intro hv
      refine ⟨3, ?_, Or.inr ⟨by decide, ?_⟩⟩
      · rw [List.mem_range'_1]; omega
      · rw [hv, sub_self, zero_div, mul_zero]
  · intro h34
    apply hsome
    rw [Ne, hnone]
    rintro ⟨k, hk, _⟩
    rw [List.mem_range'_1] at hk
    omega

theorem stirling_zero_divisor_iff_witness :
    stirlingE ([0, 1, 2, 3, 4] : List ℚ) [1, 2, 9, 28, 3] 2 = none
      ∧ stirlingE ([0, 1, 2, 3] : List ℚ) [1, 2, 9, 28] 1 = some 1 := by
  refine ⟨((stirling_zero_divisor_iff ([0, 1, 2, 3, 4] : List ℚ) [1, 2, 9, 28, 3] 2 rfl
      (by decide!)).1 (by decide)).mpr (by decide!), ?_⟩
  rw [(stirling_zero_divisor_iff ([0, 1, 2, 3] : List ℚ) [1, 2, 9, 28] 1 rfl
      (by decide!)).2 (Or.inr rfl)]
  decide!

/-! ### Rounded arithmetic: the Stirling closure -/

/-- Known binary64 values: `0.1`, the ties at `2 ^ 53 + 1` and at half the least subnormal
number, and two roundings next to them. -/
theorem roundDouble_values :
    roundDouble (1 / 10) = 3602879701896397 / 2 ^ 55
      ∧ roundDouble (2 ^ 53 + 1) = 2 ^ 53
      ∧ roundDouble (2 ^ 53 + 3) = 2 ^ 53 + 4
      ∧ roundDouble (twoPow (-1075)) = 0
      ∧ roundDouble (3 * twoPow (-1075)) = twoPow (-1073)
      ∧ roundDouble (-(1 - twoPow (-60))) = -1 := by
  decide!

theorem difference_tableR_id {K : Type} [Field K] (y : List K) :
    difference_tableR id y = difference_table y := rfl

theorem stirlingR_id {K : Type} [Field K] [DecidableEq K] (x y : List K) (v : K) :
    stirlingR id x y v = stirlingE x y v := rfl

/-- C17, as stated, fails on `double`: in binary64 arithmetic the Stirling evaluator on the
five nodes `-8, -4, 0, 4, 8` (`h = 4`) meets a zero divisor at `v = 2 ^ (-1074)`, the least
positive `double`, which is not `x[center] = 0`: the quotient `t = v / 4` rounds to `0`, so
the divisor `3 * t` of the order `3` is zero.  In exact arithmetic the same evaluation meets
no zero divisor. -/
theorem stirling_zero_divisor_off_centre :
    (∀ u ∈ ([-8, -4, 0, 4, 8, 64, 16, 0, 16, 64, twoPow (-1074)] : List ℚ), roundDouble u = u)
      ∧ roundDouble (([-8, -4, 0, 4, 8] : List ℚ).getD 3 0
          - ([-8, -4, 0, 4, 8] : List ℚ).getD 2 0) ≠ 0
      ∧ twoPow (-1074) ≠ ([-8, -4, 0, 4, 8] : List ℚ).getD 2 0
      ∧ stirlingR roundDouble [-8, -4, 0, 4, 8] [64, 16, 0, 16, 64] (twoPow (-1074)) = none
      ∧ stirlingE [-8, -4, 0, 4, 8] [64, 16, 0, 16, 64] (twoPow (-1074)) ≠ none := by
  decide!

theorem besselE_step_bad {K : Type} [Field K] [DecidableEq K] (defy : List (List K))
    (c : Int) (t : K) (h2 : (2 : K) ≠ 0) (st : K × K) (k : Nat)
    (hbad : (k % 2 = 0 ∧ (t - 1 / 2 = 0 ∨ (k : K) = 0)) ∨ (k % 2 ≠ 0 ∧ (k : K) = 0)) :
    besselE_step defy c t st k = none := by
  unfold besselE_step
  rcases hbad with ⟨hpar, hk | hk⟩ | ⟨hpar, hk⟩
  · rw [if_pos hpar, checkedDiv_zero _ _ hk]
    rfl
  · by_cases ht : t - 1 / 2 = 0
    · rw [if_pos hpar, checkedDiv_zero _ _ ht]
      rfl
    · rw [if_pos hpar, checkedDiv_ne_zero _ _ ht, checkedDiv_ne_zero _ _ h2]
      simp only [Option.bind_eq_bind, Option.some_bind]
      rw [checkedDiv_zero _ _ hk]
      rfl
  · rw [if_neg hpar, checkedDiv_zero _ _ hk]
    rfl

theorem besselE_step_good {K : Type} [Field K] [DecidableEq K] (defy : List (List K))
    (c : Int) (t : K) (h2 : (2 : K) ≠ 0) (st : K × K) (k : Nat)
    (hgood : ¬ ((k % 2 = 0 ∧ (t - 1 / 2 = 0 ∨ (k : K) = 0)) ∨ (k % 2 ≠ 0 ∧ (k : K) = 0))) :
    besselE_step defy c t st k
      = some
          (if k % 2 = 0 then
            let term := st.2 / (t - 1 / 2)
            let term := term * ((t + ((k : K) / 2 - 1)) * (t - (k : K) / 2) / (k : K))
            (st.1 + term * (entry defy (c - 1 - (((k / 2 : Nat) : Int) - 1)) k
                            + entry defy (c - (((k / 2 : Nat) : Int) - 1)) k) / 2, term)
          else
            let term := st.2 * ((t - 1 / 2) / (k : K))
            (st.1 + term * entry defy (c - ((k / 2 : Nat) : Int)) k, term)) := by
  unfold besselE_step
  by_cases hpar : k % 2 = 0
  · have ht : t - 1 / 2 ≠ 0 := fun h => hgood (Or.inl ⟨hpar, Or.inl h⟩)
    have hk : (k : K) ≠ 0 := fun h => hgood (Or.inl ⟨hpar, Or.inr h⟩)
    rw [if_pos hpar, if_pos hpar, checkedDiv_ne_zero _ _ ht, checkedDiv_ne_zero _ _ h2]
    simp only [Option.bind_eq_bind, Option.some_bind, checkedDiv_ne_zero _ _ hk,
      checkedDiv_ne_zero _ _ h2, Option.pure_def]
  · have hk : (k : K) ≠ 0 := fun h => hgood (Or.inr ⟨hpar, h⟩)
    rw [if_neg hpar, if_neg hpar, checkedDiv_ne_zero _ _ hk]
    rfl

/-- The checked Bessel evaluator, when the step `h` and the constant `2` are non-zero,
fails exactly when a divisor of its loop vanishes, and otherwise returns the value of the
unchecked evaluator. -/
theorem besselE_spec {K : Type} [Field K] [DecidableEq K] (x y : List K) (v : K)
    (hh : x.getD ((x.length - 1) / 2 + 1) 0 - x.getD ((x.length - 1) / 2) 0 ≠ 0)
    (h2 : (2 : K) ≠ 0) :
    (besselE x y v = none ↔
        ∃ k ∈ List.range' 3 (x.length - 1 - 2),
          (k % 2 = 0 ∧ ((v - x.getD ((x.length - 1) / 2) 0)
                / (x.getD ((x.length - 1) / 2 + 1) 0 - x.getD ((x.length - 1) / 2) 0) - 1 / 2 = 0
              ∨ (k : K) = 0))
            ∨ (k % 2 ≠ 0 ∧ (k : K) = 0))
      ∧ (besselE x y v ≠ none → besselE x y v = some (bessel x y v)) := by
  have hg := fun s => foldlM_guard _ _ _
    (besselE_step_bad (difference_table y) (((x.length - 1) / 2 : Nat) : Int)
      ((v - x.getD ((x.length - 1) / 2) 0)
        / (x.getD ((x.length - 1) / 2 + 1) 0 - x.getD ((x.length - 1) / 2) 0)) h2)
    (besselE_step_good (difference_table y) (((x.length - 1) / 2 : Nat) : Int)
      ((v - x.getD ((x.length - 1) / 2) 0)
        / (x.getD ((x.length - 1) / 2 + 1) 0 - x.getD ((x.length - 1) / 2) 0)) h2)
    (List.range' 3 (x.length - 1 - 2)) s
  unfold besselE
  simp only [checkedDiv_ne_zero _ _ hh, checkedDiv_ne_zero _ _ h2, Option.bind_eq_bind,
    Option.some_bind, Option.pure_def]
  by_cases hc : ∃ k ∈ List.range' 3 (x.length - 1 - 2),
      (k % 2 = 0 ∧ ((v - x.getD ((x.length - 1) / 2) 0)
            / (x.getD ((x.length - 1) / 2 + 1) 0 - x.getD ((x.length - 1) / 2) 0) - 1 / 2 = 0
          ∨ (k : K) = 0))
        ∨ (k % 2 ≠ 0 ∧ (k : K) = 0)
  · rw [(hg _).1 hc]
    exact ⟨⟨fun _ => hc, fun _ => rfl⟩, fun h => absurd rfl h⟩
  · rw [(hg _).2 (fun k hk hb => hc ⟨k, hk, hb⟩)]
    refine ⟨⟨fun h => ?_, fun h => absurd h hc⟩, fun _ => rfl⟩
    exact absurd h (by simp)

theorem midpoint_iff {K : Type} [Field K] (a b v : K) (h2 : (2 : K) ≠ 0) (hh : b - a ≠ 0) :
    (v - a) / (b - a) - 1 / 2 = 0 ↔ v = (a + b) / 2 := by
  rw [sub_eq_zero, div_eq_iff hh]
  constructor
  · intro h
    have hv : v = a + 1 / 2 * (b - a) := by rw [← h]; ring
    rw [hv]
    field_simp
    ring
  · intro h
    rw [h]
    field_simp
    ring

/-- C18, amended: over exact arithmetic, with division failing on a zero divisor and
`h = x[center+1] - x[center] ≠ 0`, on at least 5 nodes the Bessel evaluator meets a zero
divisor exactly at the midpoint `v = (x[center] + x[center+1]) / 2`; on 3 or 4 nodes it meets
none, and returns the value of the unchecked evaluator. -/
theorem bessel_zero_divisor_iff {K : Type} [Field K] [CharZero K] [DecidableEq K]
    (x y : List K) (v : K) (_hlen : x.length = y.length)
    (hh : x.getD ((x.length - 1) / 2 + 1) 0 - x.getD ((x.length - 1) / 2) 0 ≠ 0) :
    (5 ≤ x.length →
        (besselE x y v = none ↔
          v = (x.getD ((x.length - 1) / 2) 0 + x.getD ((x.length - 1) / 2 + 1) 0) / 2))
      ∧ ((x.length = 3 ∨ x.length = 4) → besselE x y v = some (bessel x y v)) := by
  have h2 : (2 : K) ≠ 0 := two_ne_zero
  obtain ⟨hnone, hsome⟩ := besselE_spec x y v hh h2
  have hmid := midpoint_iff (x.getD ((x.length - 1) / 2) 0)
    (x.getD ((x.length - 1) / 2 + 1) 0) v h2 hh
  constructor
  · intro h5
    rw [hnone]
    constructor
    · rintro ⟨k, hk, hbad⟩
      rw [List.mem_range'_1] at hk
      have hk0 : (k : K) ≠ 0 := Nat.cast_ne_zero.mpr (by omega)
      rcases hbad with ⟨_, h | h⟩ | ⟨_, h⟩
      · exact hmid.mp h
      · exact absurd h hk0
      · exact absurd h hk0
    · intro hv
      refine ⟨4, ?_, Or.inl ⟨by decide, Or.inl (hmid.mpr hv)⟩⟩
      rw [List.mem_range'_1]; omega
  · intro h34
    apply hsome
    rw [Ne, hnone]
    rintro ⟨k, hk, hbad⟩
    rw [List.mem_range'_1] at hk
    have hk3 : k = 3 := by omega
    subst hk3
    rcases hbad with ⟨hpar, _⟩ | ⟨_, h⟩
    · exact absurd hpar (by decide)
    · exact absurd h (Nat.cast_ne_zero.mpr (by decide))

theorem bessel_zero_divisor_iff_witness :
    besselE ([0, 1, 2, 3, 4] : List ℚ) [1, 2, 9, 28, 3] (5 / 2) = none
      ∧ besselE ([0, 1, 2, 3] : List ℚ) [1, 2, 9, 28] 1 = some (1 / 2) := by
  refine ⟨((bessel_zero_divisor_iff ([0, 1, 2, 3, 4] : List ℚ) [1, 2, 9, 28, 3] (5 / 2) rfl
      (by decide!)).1 (by decide)).mpr (by decide!), ?_⟩
  rw [(bessel_zero_divisor_iff ([0, 1, 2, 3] : List ℚ) [1, 2, 9, 28] 1 rfl
      (by decide!)).2 (Or.inr rfl)]
  decide!

/-! ### Rounded arithmetic: the Bessel closure -/

theorem besselR_id {K : Type} [Field K] [DecidableEq K] (x y : List K) (v : K) :
    besselR id x y v = besselE x y v := rfl

/-- C18, as stated, fails on `double`: in binary64 arithmetic the Bessel evaluator on the
five nodes `-2, -1, 2 ^ (-60), 2, 3` meets a zero divisor at `v = 1`, which is not the
midpoint `1 + 2 ^ (-61)` of `x[center] = 2 ^ (-60)` and `x[center+1] = 2`: `h` rounds to `2`
and `v - x[center]` to `1`, so `t = 0.5` and the divisor `t - 0.5` of the order `4` is zero.
In exact arithmetic the same evaluation meets no zero divisor. -/
theorem bessel_zero_divisor_off_midpoint :
    (∀ u ∈ ([-2, -1, twoPow (-60), 2, 3, 4, 1, 0, 4, 9, 1] : List ℚ), roundDouble u = u)
      ∧ roundDouble (([-2, -1, twoPow (-60), 2, 3] : List ℚ).getD 3 0
          - ([-2, -1, twoPow (-60), 2, 3] : List ℚ).getD 2 0) ≠ 0
      ∧ (1 : ℚ) ≠ (([-2, -1, twoPow (-60), 2, 3] : List ℚ).getD 2 0
          + ([-2, -1, twoPow (-60), 2, 3] : List ℚ).getD 3 0) / 2
      ∧ besselR roundDouble [-2, -1, twoPow (-60), 2, 3] [4, 1, 0, 4, 9] 1 = none
      ∧ besselE [-2, -1, twoPow (-60), 2, 3] [4, 1, 0, 4, 9] 1 ≠ none := by
  decide!


/-! ## Symbolic rendering -/

theorem foldl_push_map {α β : Type} (f : α → β) (l : List α) :
    ∀ init : List β, l.foldl (fun acc a => acc ++ [f a]) init = init ++ l.map f := by
  induction l with
  | nil => intro init; simp
  | cons a l ih =>
    intro init
    rw [List.foldl_cons, ih, List.map_cons, List.append_assoc]
    rfl

theorem foldl_push_filter_map {α β : Type} (p : α → Prop) [DecidablePred p] (f : α → β)
    (l : List α) :
    ∀ init : List β,
      l.foldl (fun acc a => if p a then acc ++ [f a] else acc) init
        = init ++ (l.filter (fun a => decide (p a))).map f := by
  induction l with
  | nil => intro init; simp
  | cons a l ih =>
    intro init
    rw [List.foldl_cons, ih]
    by_cases h : p a
    · rw [if_pos h, List.filter_cons_of_pos (by simpa using h), List.map_cons,
        List.append_assoc]
      rfl
    · rw [if_neg h, List.filter_cons_of_neg (by simpa using h)]

/-- The string written by `lagrange_latex` is the rendering of `lagrange_latex_terms`. -/
theorem lagrange_latex_eq_render {K : Type} [Field K] (to_string : K → String)
    (x y : List K) :
    lagrange_latex to_string x y = renderTerms to_string (lagrange_latex_terms x y) := by
  unfold lagrange_latex renderTerms lagrange_latex_terms
  simp only []
  rw [foldl_push_map, List.nil_append, List.map_map]
  congr 1
  apply List.map_congr_left
  intro i _
  rw [foldl_push_filter_map (fun j => i ≠ j), List.nil_append]
  simp only [Function.comp, List.map_map]
  cases hf : (List.range x.length).filter (fun j => decide (i ≠ j)) with
  | nil => rfl
  | cons a l => rfl

/-- C12: on the nodes `(0,1), (1,2)` the string written by `lagrange_latex` is the rendering
of the terms `1 * (x - 1)` and `2 * (x - 0)`, whose value at `x = 0` is `-1`, whereas the
Lagrange evaluator returns `1` at `0`. -/
theorem lagrange_latex_not_evaluator :
    (∀ to_string : ℚ → String,
        lagrange_latex to_string ([0, 1] : List ℚ) [1, 2]
          = renderTerms to_string [(1, [1]), (2, [0])])
      ∧ lagrange_latex_terms ([0, 1] : List ℚ) [1, 2] = [(1, [1]), (2, [0])]
      ∧ sumOfProducts (lagrange_latex_terms ([0, 1] : List ℚ) [1, 2]) 0 = -1
      ∧ interpolate InterpolationMethod.Lagrange ([0, 1] : List ℚ) [1, 2] 0 = 1 := by
  have hterms : lagrange_latex_terms ([0, 1] : List ℚ) [1, 2] = [(1, [1]), (2, [0])] := by
    decide!
  refine ⟨fun to_string => ?_, hterms, by decide!, by decide!⟩
  rw [lagrange_latex_eq_render, hterms]


theorem isEmpty_empty : "".isEmpty = true := rfl

theorem ne_of_length_lt (a b : String) (h : a.length < b.length) : a ≠ b := by
  intro hab
  rw [hab] at h
  exact absurd h (Nat.lt_irrefl _)

/-- On one node the three renderers write the literal of `y[0]` alone. -/
theorem to_latex_one_node {K : Type} [Field K] (to_string : K → String) :
    to_latex to_string InterpolationMethod.Lagrange ([0] : List K) [1] = to_string 1
      ∧ to_latex to_string InterpolationMethod.NewtonSeparated ([0] : List K) [1] = to_string 1
      ∧ to_latex to_string InterpolationMethod.NewtonFinite ([0] : List K) [1] = to_string 1 := by
  refine ⟨?_, ?_, ?_⟩
  · simp [to_latex, lagrange_latex, accumulate, List.range, List.range.loop, isEmpty_empty]
  · simp [to_latex, newton_separated_latex, accumulate, isEmpty_empty]
  · simp [to_latex, newton_finite_latex, accumulate, isEmpty_empty]

/-- On the two nodes `(0,1), (1,2)` the three renderers write a string longer than the
literal of `1`. -/
theorem to_latex_two_nodes_length {K : Type} [Field K] (to_string : K → String) :
    (to_string 1).length
        < (to_latex to_string InterpolationMethod.Lagrange ([0, 1] : List K) [1, 2]).length
      ∧ (to_string 1).length
        < (to_latex to_string InterpolationMethod.NewtonSeparated ([0, 1] : List K) [1, 2]).length
      ∧ (to_string 1).length
        < (to_latex to_string InterpolationMethod.NewtonFinite ([0, 1] : List K) [1, 2]).length := by
  have l1 : " * ".length = 3 := rfl
  have l2 : " + ".length = 3 := rfl
  have l3 : "(x - ".length = 5 := rfl
  have l4 : ")".length = 1 := rfl
  have l0 : "".length = 0 := rfl
  refine ⟨?_, ?_, ?_⟩
  · simp [to_latex, lagrange_latex, accumulate, List.range, List.range.loop, isEmpty_empty]
    split_ifs with h
    · have h1 := congrArg String.length ((String.isEmpty_iff _).mp h)
      simp only [String.length_append, l0, l1, l2, l3, l4] at h1
      omega
    · simp only [String.length_append, l1, l2, l3, l4]
      omega
  · simp [to_latex, newton_separated_latex, accumulate, List.range', List.range,
      List.range.loop, isEmpty_empty]
    split_ifs with h
    · rw [(String.isEmpty_iff _).mp h]
      simp only [String.length_append, l0, l1, l2, l3, l4]
      omega
    · simp only [String.length_append, l1, l2, l3, l4]
      omega
  · simp [to_latex, newton_finite_latex, accumulate, List.range', List.range,
      List.range.loop, isEmpty_empty]
    split_ifs with h
    · rw [(String.isEmpty_iff _).mp h]
      simp only [String.length_append, l0, l1, l2, l3, l4]
      omega
    · simp only [String.length_append, l1, l2, l3, l4]
      omega

/-- C13, as stated, fails for NewtonFinite: whatever `to_string` is, `to_latex` for method
NewtonFinite writes different strings on the data sets `x = [0], y = [1]` and
`x = [0, 1], y = [1, 2]`. -/
theorem newton_finite_latex_depends_on_data :
    ¬ ∃ to_string : ℚ → String,
        to_latex to_string InterpolationMethod.NewtonFinite ([0] : List ℚ) [1]
          = to_latex to_string InterpolationMethod.NewtonFinite ([0, 1] : List ℚ) [1, 2] := by
  rintro ⟨ts, h⟩
  have hlt := (to_latex_two_nodes_length ts).2.2
  rw [← h, (to_latex_one_node ts).2.2] at hlt
  exact absurd hlt (Nat.lt_irrefl _)

/-- C13, amended: for the two methods Stirling and Bessel, and for every data set,
`to_latex` returns the fixed string `"Unknown"`; Lagrange, NewtonSeparated and NewtonFinite
produce a data-dependent expression (their strings differ between the data sets
`x = [0], y = [1]` and `x = [0, 1], y = [1, 2]`). -/
theorem to_latex_unknown_only_stirling_bessel {K : Type} [Field K] (to_string : K → String) :
    (∀ x y : List K, to_latex to_string InterpolationMethod.Stirling x y = "Unknown")
      ∧ (∀ x y : List K, to_latex to_string InterpolationMethod.Bessel x y = "Unknown")
      ∧ to_latex to_string InterpolationMethod.Lagrange ([0] : List K) [1]
          ≠ to_latex to_string InterpolationMethod.Lagrange ([0, 1] : List K) [1, 2]
      ∧ to_latex to_string InterpolationMethod.NewtonSeparated ([0] : List K) [1]
          ≠ to_latex to_string InterpolationMethod.NewtonSeparated ([0, 1] : List K) [1, 2]
      ∧ to_latex to_string InterpolationMethod.NewtonFinite ([0] : List K) [1]
          ≠ to_latex to_string InterpolationMethod.NewtonFinite ([0, 1] : List K) [1, 2] := by
  obtain ⟨h1, h2, h3⟩ := to_latex_one_node to_string
  obtain ⟨l1, l2, l3⟩ := to_latex_two_nodes_length to_string
  refine ⟨fun _ _ => rfl, fun _ _ => rfl, ?_, ?_, ?_⟩
  · rw [h1]; exact ne_of_length_lt _ _ l1
  · rw [h2]; exact ne_of_length_lt _ _ l2
  · rw [h3]; exact ne_of_length_lt _ _ l3

/-! ## The running term of the Bessel loop -/

/-- The evaluator `bessel` is the first component of the loop state after the orders
`3 .. n`. -/
theorem bessel_eq_loop {K : Type} [Field K] (x y : List K) (v : K) :
    bessel x y v
      = (bessel_loop (difference_table y) (((x.length - 1) / 2 : Nat) : Int)
          ((v - x.getD ((x.length - 1) / 2) 0)
            / (x.getD ((x.length - 1) / 2 + 1) 0 - x.getD ((x.length - 1) / 2) 0))
          ((entry (difference_table y) (((x.length - 1) / 2 : Nat) : Int) 0
              + entry (difference_table y) ((((x.length - 1) / 2 : Nat) : Int) + 1) 0) / 2
            + ((v - x.getD ((x.length - 1) / 2) 0)
                / (x.getD ((x.length - 1) / 2 + 1) 0 - x.getD ((x.length - 1) / 2) 0) - 1 / 2)
              * entry (difference_table y) (((x.length - 1) / 2 : Nat) : Int) 1
            + (v - x.getD ((x.length - 1) / 2) 0)
                / (x.getD ((x.length - 1) / 2 + 1) 0 - x.getD ((x.length - 1) / 2) 0)
              * ((v - x.getD ((x.length - 1) / 2) 0)
                / (x.getD ((x.length - 1) / 2 + 1) 0 - x.getD ((x.length - 1) / 2) 0) - 1) / 2
              * (entry (difference_table y) ((((x.length - 1) / 2 : Nat) : Int) - 1) 2
                  + entry (difference_table y) (((x.length - 1) / 2 : Nat) : Int) 2) / 2)
          (x.length - 1 - 2)).1 := rfl

/-- One more iteration of the Bessel loop, for the order `m + 3`, acts on the running
term. -/
theorem bessel_loop_succ {K : Type} [Field K] (defy : List (List K)) (c : Int)
    (t result0 : K) (m : Nat) :
    (bessel_loop defy c t result0 (m + 1)).2
      = if (m + 3) % 2 = 0 then
          (bessel_loop defy c t result0 m).2 / (t - 1 / 2)
            * ((t + (((m + 3 : Nat) : K) / 2 - 1)) * (t - ((m + 3 : Nat) : K) / 2)
                / ((m + 3 : Nat) : K))
        else
          (bessel_loop defy c t result0 m).2 * ((t - 1 / 2) / ((m + 3 : Nat) : K)) := by
  unfold bessel_loop
  rw [List.range'_concat, List.foldl_append, List.foldl_cons, List.foldl_nil]
  have e : 3 + 1 * m = m + 3 := by omega
  rw [e]
  by_cases h : (m + 3) % 2 = 0
  · rw [if_pos h, if_pos h]
  · rw [if_neg h, if_neg h]

theorem besselProduct_succ {K : Type} [Field K] (t : K) (m : Nat) :
    besselProduct t (m + 1) = besselProduct t m * ((t + ((m + 1 : Nat) : K) - 1) * (t - ((m + 1 : Nat) : K))) := by
  unfold besselProduct
  rw [Finset.prod_Icc_succ_top (by omega)]

theorem bessel_alg_odd {K : Type} [Field K] (t B F a : K) (hF : F ≠ 0) (ha : a ≠ 0) :
    B / F * ((t - 1 / 2) / a) = (t - 1 / 2) * B / (a * F) := by
  field_simp
  ring

theorem bessel_alg_even {K : Type} [Field K] (t B F a p q : K) (hF : F ≠ 0) (ha : a ≠ 0)
    (ht : t - 1 / 2 ≠ 0) :
    (t - 1 / 2) * B / F / (t - 1 / 2) * (p * q / a) = B * (p * q) / (a * F) := by
  field_simp
  ring

/-- The running term after an even and after an odd number of iterations. -/
theorem bessel_loop_term {K : Type} [Field K] [CharZero K] (defy : List (List K)) (c : Int)
    (t result0 : K) (ht : t ≠ 1 / 2) (j : Nat) :
    (bessel_loop defy c t result0 (2 * j)).2
        = besselProduct t (j + 1) / (Nat.factorial (2 * j + 2) : K)
      ∧ (bessel_loop defy c t result0 (2 * j + 1)).2
        = (t - 1 / 2) * besselProduct t (j + 1) / (Nat.factorial (2 * j + 3) : K) := by
  have ht2 : t - 1 / 2 ≠ 0 := sub_ne_zero.mpr ht
  have hodd : ∀ j, (bessel_loop defy c t result0 (2 * j)).2
        = besselProduct t (j + 1) / (Nat.factorial (2 * j + 2) : K)
      → (bessel_loop defy c t result0 (2 * j + 1)).2
        = (t - 1 / 2) * besselProduct t (j + 1) / (Nat.factorial (2 * j + 3) : K) := by
    intro j h
    have hpar : ¬ (2 * j + 3) % 2 = 0 := by omega
    have hf : (Nat.factorial (2 * j + 2) : K) ≠ 0 :=
      Nat.cast_ne_zero.mpr (Nat.factorial_ne_zero _)
    have hk : ((2 * j + 3 : Nat) : K) ≠ 0 := Nat.cast_ne_zero.mpr (by omega)
    have hfac : Nat.factorial (2 * j + 3) = (2 * j + 3) * Nat.factorial (2 * j + 2) :=
      Nat.factorial_succ (2 * j + 2)
    rw [bessel_loop_succ, if_neg hpar, h, hfac, Nat.cast_mul]
    exact bessel_alg_odd t _ _ _ hf hk
  induction j with
  | zero =>
    have h0 : (bessel_loop defy c t result0 (2 * 0)).2
        = besselProduct t (0 + 1) / (Nat.factorial (2 * 0 + 2) : K) := by
      show t * (t - 1) / 2 = _
      simp [besselProduct, Nat.factorial]
    exact ⟨h0, hodd 0 h0⟩
  | succ j ih =>
    have heven : (bessel_loop defy c t result0 (2 * (j + 1))).2
        = besselProduct t (j + 1 + 1) / (Nat.factorial (2 * (j + 1) + 2) : K) := by
      have hpar : (2 * j + 1 + 3) % 2 = 0 := by omega
      have hf : (Nat.factorial (2 * j + 3) : K) ≠ 0 :=
        Nat.cast_ne_zero.mpr (Nat.factorial_ne_zero _)
      have hk : ((2 * j + 1 + 3 : Nat) : K) ≠ 0 := Nat.cast_ne_zero.mpr (by omega)
      have hfac : Nat.factorial (2 * (j + 1) + 2)
          = (2 * j + 1 + 3) * Nat.factorial (2 * j + 3) := Nat.factorial_succ (2 * j + 3)
      have hstep := bessel_loop_succ defy c t result0 (2 * j + 1)
      rw [if_pos hpar] at hstep
      have hhalf : ((2 * j + 1 + 3 : Nat) : K) / 2 = ((j + 1 + 1 : Nat) : K) := by
        have : (2 * j + 1 + 3 : Nat) = 2 * (j + 1 + 1) := by ring
        rw [this, Nat.cast_mul]
        simp
      have hp : t + (((j + 1 + 1 : Nat) : K) - 1) = t + ((j + 1 + 1 : Nat) : K) - 1 := by ring
      have e1 : 2 * (j + 1) = 2 * j + 1 + 1 := by ring
      rw [e1, hstep, ih.2, hhalf, hp, besselProduct_succ t (j + 1), ← e1, hfac, Nat.cast_mul]
      exact bessel_alg_even t _ _ _ _ _ hf hk ht2
    exact ⟨heven, hodd (j + 1) heven⟩

/-- C21: over exact arithmetic, for every `t ≠ 1/2` and every order `k ≥ 3`, the running value
`term` of the Bessel loop after the iteration for `k` (the loop started from
`term = t (t - 1) / 2` at order 2) is the Bessel coefficient `B_m(t) / k!` for even `k = 2m`
and `(t - 1/2) B_m(t) / k!` for odd `k = 2m + 1`, with
`B_m(t) = ∏_(i=1..m) (t + i - 1) (t - i)`. -/
theorem bessel_term_eq_coefficient {K : Type} [Field K] [CharZero K]
    (defy : List (List K)) (c : Int) (t result0 : K) (ht : t ≠ 1 / 2) (k : Nat) (hk : 3 ≤ k) :
    (bessel_loop defy c t result0 (k - 2)).2
      = if k % 2 = 0 then
          (∏ i in Finset.Icc 1 (k / 2), (t + (i : K) - 1) * (t - (i : K)))
            / (Nat.factorial k : K)
        else
          (t - 1 / 2) * (∏ i in Finset.Icc 1 (k / 2), (t + (i : K) - 1) * (t - (i : K)))
            / (Nat.factorial k : K) := by
  show _ = if k % 2 = 0 then besselProduct t (k / 2) / (Nat.factorial k : K)
    else (t - 1 / 2) * besselProduct t (k / 2) / (Nat.factorial k : K)
  rcases Nat.even_or_odd k with ⟨j, hj⟩ | ⟨j, hj⟩
  · have e : k - 2 = 2 * (j - 1) := by omega
    have e2 : k = 2 * (j - 1) + 2 := by omega
    have e3 : k / 2 = j - 1 + 1 := by omega
    rw [if_pos (by omega), e, (bessel_loop_term defy c t result0 ht (j - 1)).1, e3, ← e2]
  · have e : k - 2 = 2 * (j - 1) + 1 := by omega
    have e2 : k = 2 * (j - 1) + 3 := by omega
    have e3 : k / 2 = j - 1 + 1 := by omega
    rw [if_neg (by omega), e, (bessel_loop_term defy c t result0 ht (j - 1)).2, e3, ← e2]

theorem bessel_term_eq_coefficient_witness :
    (3 : ℚ) ≠ 1 / 2 ∧ (bessel_loop ([] : List (List ℚ)) 0 3 0 (5 - 2)).2 = 1 / 2 := by
  refine ⟨by norm_num, ?_⟩
  rw [bessel_term_eq_coefficient ([] : List (List ℚ)) 0 3 0 (by norm_num) 5 (by decide)]
  decide!

/-! ## The rendering of the Newton polynomial -/

theorem foldl_add_map_sum {K : Type} [Field K] (f : Nat → K) (l : List Nat) :
    ∀ a : K, l.foldl (fun s i => s + f i) a = a + (l.map f).sum := by
  induction l with
  | nil => intro a; simp
  | cons i l ih =>
    intro a
    rw [List.foldl_cons, ih, List.map_cons, List.sum_cons, add_assoc]

theorem foldl_mul_map_prod {K : Type} [Field K] (g : Nat → K) (l : List Nat) :
    ∀ a : K, l.foldl (fun p j => p * g j) a = a * (l.map g).prod := by
  induction l with
  | nil => intro a; simp
  | cons j l ih =>
    intro a
    rw [List.foldl_cons, ih, List.map_cons, List.prod_cons, mul_assoc]

theorem range_eq_zero_cons (n : Nat) (hn : 1 ≤ n) :
    List.range n = 0 :: List.range' 1 (n - 1) := by
  obtain ⟨m, rfl⟩ : ∃ m, n = m + 1 := ⟨n - 1, by omega⟩
  rw [List.range_eq_range', List.range'_succ]
  rfl

/-- The string written by `newton_separated_latex` is the rendering of
`newton_separated_latex_terms`. -/
theorem newton_separated_latex_eq_render {K : Type} [Field K] (to_string : K → String)
    (x y : List K) (hn : 1 ≤ x.length) :
    newton_separated_latex to_string x y
      = renderTerms to_string (newton_separated_latex_terms x y) := by
  unfold newton_separated_latex renderTerms newton_separated_latex_terms
  simp only []
  rw [foldl_push_map, List.map_map, range_eq_zero_cons x.length hn, List.map_cons]
  congr 1
  refine congrArg₂ List.cons rfl ?_
  apply List.map_congr_left
  intro i hi
  rw [List.mem_range'_1] at hi
  obtain ⟨m, rfl⟩ : ∃ m, i = m + 1 := ⟨i - 1, by omega⟩
  rw [foldl_push_map, List.nil_append]
  simp only [Function.comp, List.map_map]
  rw [List.range_succ]
  simp only [List.map_append, List.map_cons, List.map_nil]
  cases hr : List.map (fun j => x.getD j 0) (List.range m) with
  | nil => rfl
  | cons a l => rfl

/-- The rendering of `newton_separated_latex`, read as a sum of products, has the value of
the NewtonSeparated evaluator. -/
theorem sumOfProducts_newton_separated {K : Type} [Field K] (x y : List K) (v : K)
    (hn : 1 ≤ x.length) :
    sumOfProducts (newton_separated_latex_terms x y) v = newton_separated x y v := by
  unfold sumOfProducts newton_separated_latex_terms newton_separated
  simp only []
  rw [foldl_add_map_sum, List.map_map, range_eq_zero_cons x.length hn, List.map_cons,
    List.sum_cons]
  congr 1
  · simp [Function.comp]
  · congr 1
    apply List.map_congr_left
    intro i _
    rw [foldl_mul_map_prod, one_mul]
    show (differences x y).getD i 0
        * (List.map (fun a => v - a) (List.map (fun j => x.getD j 0) (List.range i))).prod = _
    rw [List.map_map]
    rfl

/-! ## Reading a rendering back -/

/-- Known outputs of the format `"%f"`, and their reading. -/
theorem to_string6_values :
    to_string6 (1 / 3) = "0.333333" ∧ to_string6 (2 / 3) = "0.666667"
      ∧ to_string6 (-5 / 2) = "-2.500000" ∧ to_string6 1234 = "1234.000000"
      ∧ to_string6 (1 / 2000000) = "0.000000" ∧ to_string6 (3 / 2000000) = "0.000002"
      ∧ readDecimal "0.333333" = some (333333 / 1000000)
      ∧ readDecimal "-2.500000" = some (-5 / 2)
      ∧ readDecimal "1234" = none := by
  decide!

theorem blankBefore_append (u w : List (List Char)) :
    blankBefore (u ++ w) = blankBefore u ++ blankBefore w := by
  induction u with
  | nil => rfl
  | cons a u ih => simp [blankBefore, ih]

theorem splitBlanks_word (w : List Char) (hw : ' ' ∉ w) (rest cur : List Char) :
    splitBlanks (w ++ rest) cur = splitBlanks rest (cur ++ w) := by
  induction w generalizing cur with
  | nil => simp
  | cons c w ih =>
    have hc : c ≠ ' ' := fun h => hw (by simp [h])
    have hw2 : ' ' ∉ w := fun h => hw (List.mem_cons_of_mem _ h)
    have hstep : splitBlanks (c :: (w ++ rest)) cur = splitBlanks (w ++ rest) (cur ++ [c]) := by
      simp [splitBlanks, hc]
    rw [List.cons_append, hstep, ih hw2]
    simp

theorem splitBlanks_blankBefore (ws : List (List Char)) (hws : ∀ w ∈ ws, ' ' ∉ w)
    (cur : List Char) : splitBlanks (blankBefore ws) cur = cur :: ws := by
  induction ws generalizing cur with
  | nil => rfl
  | cons w ws ih =>
    simp only [blankBefore, splitBlanks, if_true]
    rw [splitBlanks_word w (hws w (List.mem_cons_self _ _)),
      ih (fun u hu => hws u (List.mem_cons_of_mem _ hu))]
    simp

theorem string_ne_empty_iff (s : String) : s ≠ "" ↔ s.data ≠ [] := by
  constructor
  · intro h hd
    apply h
    cases s
    simp_all
  · intro h hs
    apply h
    rw [hs]

theorem accumulate_cons (sep p : String) (ps : List String) (hp : p ≠ "") :
    accumulate sep (p :: ps) = ps.foldl (fun a b => a ++ sep ++ b) p := by
  have key : ∀ (ps : List String) (a : String), a ≠ "" →
      ps.foldl (fun a b => if a.isEmpty then b else a ++ sep ++ b) a
        = ps.foldl (fun a b => a ++ sep ++ b) a := by
    intro ps
    induction ps with
    | nil => intro a _; rfl
    | cons b ps ih =>
      intro a ha
      have hne : a.isEmpty = false := by
        cases h : a.isEmpty
        · rfl
        · exact absurd ((String.isEmpty_iff _).mp h) ha
      simp only [List.foldl_cons, hne, Bool.false_eq_true, if_false]
      apply ih
      rw [string_ne_empty_iff] at ha ⊢
      simp [String.data_append, ha]
  unfold accumulate
  rw [List.foldl_cons]
  have h0 : ("" : String).isEmpty = true := rfl
  simp only [h0, if_true]
  exact key ps p hp

theorem factors_data {K : Type} (to_string : K → String) (fs : List K) (p : String) :
    ((fs.map (fun a => "(x - " ++ to_string a ++ ")")).foldl
        (fun a b => a ++ " * " ++ b) p).data
      = p.data ++ blankBefore (factorWords to_string fs) := by
  induction fs generalizing p with
  | nil => simp [blankBefore, factorWords]
  | cons a fs ih =>
    simp only [List.map_cons, List.foldl_cons]
    rw [ih]
    simp [String.data_append, blankBefore, factorWords]

theorem term_data {K : Type} (to_string : K → String) (t : K × List K) :
    (if t.2.isEmpty then to_string t.1
      else to_string t.1 ++ " * "
        ++ accumulate " * " (t.2.map (fun a => "(x - " ++ to_string a ++ ")"))).data
      = (to_string t.1).data ++ blankBefore (factorWords to_string t.2) := by
  obtain ⟨c, fs⟩ := t
  cases fs with
  | nil => simp [blankBefore, factorWords]
  | cons a fs =>
    have hne : "(x - " ++ to_string a ++ ")" ≠ "" := by
      rw [string_ne_empty_iff]
      simp [String.data_append]
    simp only [List.isEmpty_cons, Bool.false_eq_true, if_false, List.map_cons]
    rw [accumulate_cons _ _ _ hne]
    simp only [String.data_append]
    rw [factors_data]
    simp [String.data_append, blankBefore, factorWords]

theorem terms_data {K : Type} (to_string : K → String) (rest : List (K × List K))
    (p : String) :
    ((rest.map (fun t =>
        if t.2.isEmpty then to_string t.1
        else to_string t.1 ++ " * "
          ++ accumulate " * " (t.2.map (fun a => "(x - " ++ to_string a ++ ")")))).foldl
        (fun a b => a ++ " + " ++ b) p).data
      = p.data ++ blankBefore (termWords to_string rest) := by
  induction rest generalizing p with
  | nil => simp [blankBefore, termWords]
  | cons t rest ih =>
    simp only [List.map_cons, List.foldl_cons]
    rw [ih]
    simp only [String.data_append]
    rw [term_data]
    simp [blankBefore, termWords, blankBefore_append]

theorem renderTerms_data {K : Type} [Field K] (to_string : K → String) (t : K × List K)
    (rest : List (K × List K)) (ht : to_string t.1 ≠ "") :
    (renderTerms to_string (t :: rest)).data
      = (to_string t.1).data
        ++ blankBefore (factorWords to_string t.2 ++ termWords to_string rest) := by
  have hne : (if t.2.isEmpty then to_string t.1
      else to_string t.1 ++ " * "
        ++ accumulate " * " (t.2.map (fun a => "(x - " ++ to_string a ++ ")"))) ≠ "" := by
    rw [string_ne_empty_iff, term_data]
    rw [string_ne_empty_iff] at ht
    simp [ht]
  unfold renderTerms
  rw [List.map_cons, accumulate_cons _ _ _ hne, terms_data, term_data, blankBefore_append]
  simp

theorem factorWords_no_blank {K : Type} (to_string : K → String) (fs : List K)
    (h : ∀ a ∈ fs, ' ' ∉ (to_string a).data) :
    ∀ w ∈ factorWords to_string fs, ' ' ∉ w := by
  induction fs with
  | nil => intro w hw; simp [factorWords] at hw
  | cons a fs ih =>
    intro w hw
    simp only [factorWords, List.mem_cons] at hw
    rcases hw with rfl | rfl | rfl | rfl | hw
    · decide
    · decide
    · decide
    · have := h a (List.mem_cons_self _ _)
      simp [this]
    · exact ih (fun b hb => h b (List.mem_cons_of_mem _ hb)) w hw

theorem termWords_no_blank {K : Type} (to_string : K → String) (rest : List (K × List K))
    (h : ∀ t ∈ rest, ' ' ∉ (to_string t.1).data ∧ ∀ a ∈ t.2, ' ' ∉ (to_string a).data) :
    ∀ w ∈ termWords to_string rest, ' ' ∉ w := by
  induction rest with
  | nil => intro w hw; simp [termWords] at hw
  | cons t rest ih =>
    intro w hw
    simp only [termWords, List.mem_cons, List.mem_append] at hw
    rcases hw with rfl | rfl | hw | hw
    · decide
    · exact (h t (List.mem_cons_self _ _)).1
    · exact factorWords_no_blank to_string t.2 (h t (List.mem_cons_self _ _)).2 w hw
    · exact ih (fun u hu => h u (List.mem_cons_of_mem _ hu)) w hw

theorem readWords_factorWords {K : Type} (to_string : K → String)
    (readLiteral : String → Option K) (c : K) (gs : List K)
    (h : ∀ a ∈ gs, readLiteral (to_string a) = some a) (fs : List K)
    (ws : List (List Char)) (done : List (K × List K)) :
    readWords readLiteral (factorWords to_string gs ++ ws) done (.operator c fs)
      = readWords readLiteral ws done (.operator c (fs ++ gs)) := by
  induction gs generalizing fs with
  | nil => simp [factorWords]
  | cons a gs ih =>
    have h1 : (['*'] : List Char) ≠ ['+'] := by decide
    have h2 : ((to_string a).data ++ [')']).getLast? = some ')' := by simp
    have h3 : String.mk ((to_string a).data ++ [')']).dropLast = to_string a := by simp
    simp only [factorWords, List.cons_append, readWords, if_neg h1, if_true, h2, h3,
      h a (List.mem_cons_self _ _), List.append_eq]
    rw [ih (fun b hb => h b (List.mem_cons_of_mem _ hb))]
    simp

theorem readWords_termWords {K : Type} (to_string : K → String)
    (readLiteral : String → Option K) (rest : List (K × List K))
    (h : ∀ t ∈ rest, readLiteral (to_string t.1) = some t.1
      ∧ ∀ a ∈ t.2, readLiteral (to_string a) = some a) (c : K) (fs : List K)
    (done : List (K × List K)) :
    readWords readLiteral (termWords to_string rest) done (.operator c fs)
      = some (done ++ (c, fs) :: rest) := by
  induction rest generalizing c fs done with
  | nil => simp [termWords, readWords]
  | cons t rest ih =>
    obtain ⟨ht1, ht2⟩ := h t (List.mem_cons_self _ _)
    have h3 : String.mk (to_string t.1).data = to_string t.1 := rfl
    simp only [termWords, readWords, if_true, h3, ht1, List.append_eq]
    rw [readWords_factorWords to_string readLiteral t.1 t.2 ht2,
      ih (fun u hu => h u (List.mem_cons_of_mem _ hu))]
    simp

/-- A rendering whose literals are exact reads back as the terms it was written from. -/
theorem readExpression_renderTerms {K : Type} [Field K] (to_string : K → String)
    (readLiteral : String → Option K) (terms : List (K × List K)) (hne : terms ≠ [])
    (h : ∀ t ∈ terms, ExactLiteral to_string readLiteral t.1
      ∧ ∀ a ∈ t.2, ExactLiteral to_string readLiteral a) :
    readExpression readLiteral (renderTerms to_string terms) = some terms := by
  cases terms with
  | nil => exact absurd rfl hne
  | cons t rest =>
    obtain ⟨ht1, ht2⟩ := h t (List.mem_cons_self _ _)
    have hwords : ∀ w ∈ factorWords to_string t.2 ++ termWords to_string rest, ' ' ∉ w := by
      intro w hw
      rcases List.mem_append.mp hw with hw | hw
      · exact factorWords_no_blank to_string t.2 (fun a ha => (ht2 a ha).2.1) w hw
      · exact termWords_no_blank to_string rest
          (fun u hu => ⟨(h u (List.mem_cons_of_mem _ hu)).1.2.1,
            fun a ha => ((h u (List.mem_cons_of_mem _ hu)).2 a ha).2.1⟩) w hw
    have h3 : String.mk (to_string t.1).data = to_string t.1 := rfl
    unfold readExpression
    rw [renderTerms_data to_string t rest ht1.1, splitBlanks_word _ ht1.2.1,
      splitBlanks_blankBefore _ hwords]
    simp only [List.nil_append, readWords, h3, ht1.2.2]
    rw [readWords_factorWords to_string readLiteral t.1 t.2 (fun a ha => (ht2 a ha).2.2),
      readWords_termWords to_string readLiteral rest
        (fun u hu => ⟨(h u (List.mem_cons_of_mem _ hu)).1.2.2,
          fun a ha => ((h u (List.mem_cons_of_mem _ hu)).2 a ha).2.2⟩)]
    simp

theorem newton_separated_latex_terms_exact {K : Type} [Field K] (to_string : K → String)
    (readLiteral : String → Option K) (x y : List K)
    (hcoef : ∀ i, i < x.length →
      ExactLiteral to_string readLiteral ((differences x y).getD i 0))
    (hnode : ∀ j, j + 1 < x.length → ExactLiteral to_string readLiteral (x.getD j 0)) :
    ∀ t ∈ newton_separated_latex_terms x y, ExactLiteral to_string readLiteral t.1
      ∧ ∀ a ∈ t.2, ExactLiteral to_string readLiteral a := by
  intro t ht
  unfold newton_separated_latex_terms at ht
  rw [List.mem_map] at ht
  obtain ⟨i, hi, rfl⟩ := ht
  rw [List.mem_range] at hi
  refine ⟨hcoef i hi, ?_⟩
  intro a ha
  rw [List.mem_map] at ha
  obtain ⟨j, hj, rfl⟩ := ha
  rw [List.mem_range] at hj
  exact hnode j (by omega)

/-- C22, amended: over exact arithmetic, for `n ≥ 1` nodes the string returned by `to_latex`
for NewtonSeparated is the rendering of exactly `n` terms, term `i` being the literal of
`differences()[i]` followed by the factors `(x - x_0) ... (x - x_(i-1))` in that order (none
for `i = 0`); and when `to_string` writes these coefficients and nodes exactly, the string
read as a sum of products gives back these terms, and its value at `x = v` is the value of
the NewtonSeparated evaluator at `v`. -/
theorem newton_separated_latex_denotes_evaluator {K : Type} [Field K]
    (to_string : K → String) (readLiteral : String → Option K) (x y : List K)
    (_hlen : x.length = y.length) (hn : 1 ≤ x.length)
    (hcoef : ∀ i, i < x.length →
      ExactLiteral to_string readLiteral ((differences x y).getD i 0))
    (hnode : ∀ j, j + 1 < x.length → ExactLiteral to_string readLiteral (x.getD j 0)) :
    to_latex to_string InterpolationMethod.NewtonSeparated x y
        = renderTerms to_string (newton_separated_latex_terms x y)
      ∧ (newton_separated_latex_terms x y).length = x.length
      ∧ (∀ i, i < x.length →
          (newton_separated_latex_terms x y)[i]?
            = some ((differences x y).getD i 0, (List.range i).map (fun j => x.getD j 0)))
      ∧ readExpression readLiteral (to_latex to_string InterpolationMethod.NewtonSeparated x y)
          = some (newton_separated_latex_terms x y)
      ∧ ∀ v : K,
          evalExpression readLiteral
              (to_latex to_string InterpolationMethod.NewtonSeparated x y) v
            = some (interpolate InterpolationMethod.NewtonSeparated x y v) := by
  have hrender := newton_separated_latex_eq_render to_string x y hn
  have hlen : (newton_separated_latex_terms x y).length = x.length := by
    unfold newton_separated_latex_terms
    rw [List.length_map, List.length_range]
  have hne : newton_separated_latex_terms x y ≠ [] := by
    intro h
    rw [h] at hlen
    simp at hlen
    omega
  have hread : readExpression readLiteral
      (to_latex to_string InterpolationMethod.NewtonSeparated x y)
        = some (newton_separated_latex_terms x y) := by
    show readExpression readLiteral (newton_separated_latex to_string x y) = _
    rw [hrender]
    exact readExpression_renderTerms to_string readLiteral _ hne
      (newton_separated_latex_terms_exact to_string readLiteral x y hcoef hnode)
  refine ⟨hrender, hlen, ?_, hread, ?_⟩
  · intro i hi
    unfold newton_separated_latex_terms
    rw [List.getElem?_map, List.getElem?_range hi]
    rfl
  · intro v
    unfold evalExpression
    rw [hread, Option.map_some', sumOfProducts_newton_separated x y v hn]
    rfl

theorem newton_separated_latex_denotes_evaluator_witness :
    readExpression readDecimal
        (to_latex to_string6 InterpolationMethod.NewtonSeparated [0, 1, 2, 3] [1, 2, 9, 28])
        = some [(1, []), (1, [0]), (3, [0, 1]), (1, [0, 1, 2])]
      ∧ evalExpression readDecimal
        (to_latex to_string6 InterpolationMethod.NewtonSeparated [0, 1, 2, 3] [1, 2, 9, 28])
        (3 / 2) = some (35 / 8) := by
  have h := newton_separated_latex_denotes_evaluator to_string6 readDecimal
    ([0, 1, 2, 3] : List ℚ) [1, 2, 9, 28] rfl (by decide)
    (by
      intro i hi
      have hi4 : i < 4 := hi
      unfold ExactLiteral
      interval_cases i <;> decide!)
    (by
      intro j hj
      have hj3 : j < 3 := Nat.lt_of_succ_lt_succ hj
      unfold ExactLiteral
      interval_cases j <;> decide!)
  refine ⟨?_, ?_⟩
  · rw [h.2.2.2.1]
    decide!
  · rw [h.2.2.2.2 (3 / 2)]
    decide!

/-- C22, as stated, fails: on the nodes `(0, 0), (3, 1)` the coefficient `differences()[1]` is
`1 / 3`, which `std::to_string` writes `0.333333`; the rendered string, read as a sum of
products at `x = 3`, has the value `0.999999`, while the evaluator returns `1` at this node. -/
theorem newton_separated_latex_rounds_literals :
    to_latex to_string6 InterpolationMethod.NewtonSeparated [0, 3] [0, 1]
        = "0.000000 + 0.333333 * (x - 0.000000)"
      ∧ evalExpression readDecimal
          (to_latex to_string6 InterpolationMethod.NewtonSeparated [0, 3] [0, 1]) 3
        = some (999999 / 1000000)
      ∧ interpolate InterpolationMethod.NewtonSeparated ([0, 3] : List ℚ) [0, 1] 3 = 1 := by
  decide!

/-- C23: on every data set `to_latex` returns for NewtonFinite exactly the string it returns
for NewtonSeparated; `newton_finite_latex` and `newton_separated_latex` are the same
function. -/
theorem to_latex_newton_finite_eq_newton_separated {K : Type} [Field K]
    (to_string : K → String) (x y : List K) :
    to_latex to_string InterpolationMethod.NewtonFinite x y
        = to_latex to_string InterpolationMethod.NewtonSeparated x y
      ∧ (newton_finite_latex : (K → String) → List K → List K → String)
        = newton_separated_latex :=
  ⟨rfl, rfl⟩

/-! ## The file parser -/

/-- The line loop fails when some line does not start with two numbers, and otherwise
appends the pairs to the vectors in the order of the lines. -/
theorem parse_lines_spec {K : Type} (readNumber : String → Option (K × String))
    (lines : List String) :
    ∀ x_values y_values : List K,
      ((∃ l ∈ lines, readPair readNumber l = none) →
          parse_lines readNumber lines x_values y_values = none)
        ∧ ((∀ l ∈ lines, readPair readNumber l ≠ none) →
          ∃ xs ys, parse_lines readNumber lines x_values y_values
              = some (x_values ++ xs, y_values ++ ys)
            ∧ xs.map some = lines.map (fun l => (readPair readNumber l).map Prod.fst)
            ∧ ys.map some = lines.map (fun l => (readPair readNumber l).map Prod.snd)) := by
  induction lines with
  | nil =>
    intro x_values y_values
    refine ⟨?_, fun _ => ⟨[], [], ?_, rfl, rfl⟩⟩
    · rintro ⟨l, hl, _⟩
      exact absurd hl (List.not_mem_nil l)
    · rw [List.append_nil, List.append_nil]
      rfl
  | cons line rest ih =>
    intro x_values y_values
    cases hp : readPair readNumber line with
    | none =>
      refine ⟨fun _ => ?_, fun h => absurd hp (h line (List.mem_cons_self line rest))⟩
      unfold parse_lines
      rw [hp]
    | some p =>
      obtain ⟨a, b⟩ := p
      have hstep : parse_lines readNumber (line :: rest) x_values y_values
          = parse_lines readNumber rest (x_values ++ [a]) (y_values ++ [b]) := by
        conv_lhs => unfold parse_lines
        rw [hp]
      rw [hstep]
      obtain ⟨ihbad, ihgood⟩ := ih (x_values ++ [a]) (y_values ++ [b])
      constructor
      · rintro ⟨l, hl, hbad⟩
        rcases List.mem_cons.mp hl with rfl | hl2
        · rw [hp] at hbad
          exact absurd hbad (by simp)
        · exact ihbad ⟨l, hl2, hbad⟩
      · intro h
        obtain ⟨xs, ys, hres, hxs, hys⟩ := ihgood (fun l hl => h l (List.mem_cons_of_mem line hl))
        refine ⟨a :: xs, b :: ys, ?_, ?_, ?_⟩
        · rw [hres, List.append_assoc, List.append_assoc]
          rfl
        · rw [List.map_cons, List.map_cons, hxs, hp]
          rfl
        · rw [List.map_cons, List.map_cons, hys, hp]
          rfl

/-- C24: with the file a list of lines and number reading a partial function, `parse_file`
returns `status = true` exactly when the file opens, its first line begins with a number and
every later line begins with two numbers; then `firstValue` is the number of the first line
and `x_values`, `y_values` hold the pairs of the later lines in file order (same length as
the list of those lines).  In every other case the result is `status = false`,
`firstValue = 0` and two empty vectors. -/
theorem parse_file_spec {K : Type} [Field K] (readNumber : String → Option (K × String))
    (file : Option (List String)) :
    ((parse_file readNumber file).status = true ↔
        ∃ line rest, file = some (line :: rest) ∧ readNumber line ≠ none
          ∧ ∀ l ∈ rest, readPair readNumber l ≠ none)
      ∧ (∀ line rest, file = some (line :: rest) →
          (parse_file readNumber file).status = true →
            (readNumber line).map Prod.fst = some (parse_file readNumber file).firstValue
              ∧ (parse_file readNumber file).x_values.map some
                  = rest.map (fun l => (readPair readNumber l).map Prod.fst)
              ∧ (parse_file readNumber file).y_values.map some
                  = rest.map (fun l => (readPair readNumber l).map Prod.snd)
              ∧ (parse_file readNumber file).x_values.length = rest.length
              ∧ (parse_file readNumber file).y_values.length = rest.length)
      ∧ ((parse_file readNumber file).status ≠ true →
          parse_file readNumber file = ⟨false, 0, [], []⟩) := by
  cases file with
  | none =>
    refine ⟨⟨fun h => absurd h (by simp [parse_file]), ?_⟩, ?_, fun _ => rfl⟩
    · rintro ⟨line, rest, h, _⟩
      exact absurd h (by simp)
    · intro line rest h
      exact absurd h (by simp)
  | some lines =>
    cases lines with
    | nil =>
      refine ⟨⟨fun h => absurd h (by simp [parse_file]), ?_⟩, ?_, fun _ => rfl⟩
      · rintro ⟨line, rest, h, _⟩
        exact absurd h (by simp)
      · intro line rest h
        exact absurd h (by simp)
    | cons first later =>
      cases hfirst : readNumber first with
      | none =>
        have hres : parse_file readNumber (some (first :: later)) = ⟨false, 0, [], []⟩ := by
          unfold parse_file
          simp only [hfirst]
        rw [hres]
        refine ⟨⟨fun h => absurd h (by simp), ?_⟩, ?_, fun _ => rfl⟩
        · rintro ⟨line, rest, h, hne, _⟩
          simp only [Option.some.injEq, List.cons.injEq] at h
          rw [← h.1, hfirst] at hne
          exact absurd rfl hne
        · intro line rest _ h
          exact absurd h (by simp)
      | some p =>
        obtain ⟨firstValue, after⟩ := p
        obtain ⟨hbad, hgood⟩ := parse_lines_spec readNumber later [] []
        by_cases hall : ∀ l ∈ later, readPair readNumber l ≠ none
        · obtain ⟨xs, ys, hres, hxs, hys⟩ := hgood hall
          have hpf : parse_file readNumber (some (first :: later))
              = ⟨true, firstValue, xs, ys⟩ := by
            unfold parse_file
            simp only [hfirst, hres, List.nil_append]
          rw [hpf]
          refine ⟨⟨fun _ => ⟨first, later, rfl, by rw [hfirst]; simp, hall⟩, fun _ => rfl⟩, ?_,
            fun h => absurd rfl h⟩
          intro line rest h _
          simp only [Option.some.injEq, List.cons.injEq] at h
          obtain ⟨h1, h2⟩ := h
          subst h1
          subst h2
          refine ⟨by rw [hfirst]; rfl, hxs, hys, ?_, ?_⟩
          · have := congrArg List.length hxs
            rw [List.length_map, List.length_map] at this
            exact this
          · have := congrArg List.length hys
            rw [List.length_map, List.length_map] at this
            exact this
        · have hex : ∃ l ∈ later, readPair readNumber l = none := by
            by_contra hc
            exact hall (fun l hl hn => hc ⟨l, hl, hn⟩)
          have hpf : parse_file readNumber (some (first :: later)) = ⟨false, 0, [], []⟩ := by
            unfold parse_file
            simp only [hfirst, hbad hex]
          rw [hpf]
          refine ⟨⟨fun h => absurd h (by simp), ?_⟩, ?_, fun _ => rfl⟩
          · rintro ⟨line, rest, h, _, hrest⟩
            simp only [Option.some.injEq, List.cons.injEq] at h
            rw [← h.2] at hrest
            exact absurd hrest hall
          · intro line rest _ h
            exact absurd h (by simp)

/-- A file of three lines `7`, `1 2`, `3 4`, read by a number reader that knows these
strings, parses to `firstValue = 7`, `x_values = [1, 3]`, `y_values = [2, 4]`; when the last
line is `3` alone the result is the failure value. -/
theorem parse_file_spec_witness :
    (parse_file
        (fun s => if s = "7" then some ((7 : ℚ), "") else if s = "1 2" then some (1, " 2")
          else if s = " 2" then some (2, "") else if s = "3 4" then some (3, " 4")
          else if s = " 4" then some (4, "") else if s = "3" then some (3, "") else none)
        (some ["7", "1 2", "3 4"])).status = true
      ∧ parse_file
          (fun s => if s = "7" then some ((7 : ℚ), "") else if s = "1 2" then some (1, " 2")
            else if s = " 2" then some (2, "") else if s = "3 4" then some (3, " 4")
            else if s = " 4" then some (4, "") else if s = "3" then some (3, "") else none)
          (some ["7", "1 2", "3"]) = ⟨false, 0, [], []⟩ := by
  constructor
  · exact (parse_file_spec _ _).1.mpr ⟨"7", ["1 2", "3 4"], rfl, by decide, by decide⟩
  · exact (parse_file_spec _ _).2.2 (by decide)

end IntepolationCalculator
